import Mathlib

/-!
Verification development for the ride-pooling batch assignment engine.

The Python sources are shallowly embedded as executable Lean definitions:

* `src/optimizer/network/road_network.py` — the trip feasibility oracle
  `travel` together with its permutation validity filter
  `is_valid_permutation` and travel-time simulation;
* `src/optimizer/graphs/rv_graph.py` — RV graph construction with VR and
  RR edges and the per-node pruning pass;
* `src/optimizer/solver/problem_formulation.py` — the greedy seed
  assignment and the construction and extraction side of the assignment
  integer program.

Conventions: road-network nodes are natural numbers; travel times, costs
and clock values are rationals; the networkx shortest-path oracle
`nx.shortest_path_length (weight = travel time)` is an abstract function
`tt : Node → Node → Option α` where `none` models the `NetworkXNoPath`
exception.  Python dictionaries for requests and vehicles become
structures with the same field names (`o_r`, `d_r`, `q_v`, `t_v`,
`trip_set`, `passengers`); the time fields `t_r^pl` and `t_r^*` are
spelled `t_pl` and `t_star`.
-/

namespace HovRide

set_option linter.unusedSectionVars false
set_option linter.unusedVariables false

/-- Road-network vertex, an opaque integer identifier. -/
abbrev Node := ℕ

/-- A ride request, mirroring the Python request dictionary.  Only the
fields read by the embedded code are kept. -/
structure Request (α : Type) where
  rid : ℕ
  o_r : Node
  d_r : Node
  /-- latest acceptable pickup time, Python key `t_r^pl`. -/
  t_pl : α
  /-- earliest drop-off time, Python key `t_r^*`. -/
  t_star : α
deriving DecidableEq, Repr

/-- A vehicle, mirroring the Python vehicle dictionary. -/
structure Vehicle (α : Type) where
  vid : ℕ
  q_v : Node
  t_v : α
  passengers : ℕ
  trip_set : List (Request α)
deriving DecidableEq, Repr

/-- Stop kind tag, Python string field `type`. -/
inductive StopType where
  | pickup
  | dropoff
deriving DecidableEq, Repr

/-- A stop dictionary as built by `travel` in `road_network.py`. -/
structure Stop (α : Type) where
  type : StopType
  node : Node
  request : Request α
deriving DecidableEq, Repr

/-- Result of the `travel` oracle.  The Python function returns one of
three value shapes: `(None, float inf)` is `infeasible` (the cost is
always plus infinity there), `(vehicle trip_set, 0)` is `plan`, and a
stop tuple with its accumulated cost is `seq`. -/
inductive TravelResult (α : Type) where
  | infeasible
  | plan (trip_set : List (Request α)) (cost : α)
  | seq (stops : List (Stop α)) (cost : α)
deriving DecidableEq, Repr

variable {α : Type} [LinearOrderedAddCommGroup α]

/-- The stop multiset considered by `travel`: one DROPOFF per onboard
request, then one PICKUP and one DROPOFF per new request, in the list
order of the Python construction. -/
def stopsOf (v : Vehicle α) (new_requests : List (Request α)) : List (Stop α) :=
  v.trip_set.map (fun r => ⟨StopType.dropoff, r.d_r, r⟩)
    ++ new_requests.map (fun r => ⟨StopType.pickup, r.o_r, r⟩)
    ++ new_requests.map (fun r => ⟨StopType.dropoff, r.d_r, r⟩)

/-- Python `max(0, len(new_requests) - max_capacity + len(trip_set))`,
the minimum number of drop-offs required before any new pickup. -/
def minDropsFor (v : Vehicle α) (new_requests : List (Request α)) (cap : ℕ) : ℕ :=
  ((new_requests.length : ℤ) - (cap : ℤ) + (v.trip_set.length : ℤ)).toNat

/-- Shared body of both branches of `is_valid_permutation`.  State:
already-seen pickup ids (`pickup_seen`), drop-offs made, pickups made.
The empty-vehicle branch of the Python code is the instance
`bound := max_capacity`, `minDrops := 0` (it has no drop-off-first check,
which is the same as a vacuous `0` threshold); the nonempty branch is
`bound := len(trip_set)` with the computed `minDrops` threshold.  The
Python nonempty branch increments `dropoffs_made` before testing
membership in `pickup_seen`; a failed test returns `False` either way,
so both branches share this body. -/
def validAux (bound minDrops : ℕ) :
    List (Stop α) → Finset ℕ → ℕ → ℕ → Bool
  | [], _, _, _ => true
  | s :: rest, seen, dropoffs, pickups =>
    match s.type with
    | StopType.dropoff =>
      if s.request.rid ∈ seen then
        validAux bound minDrops rest seen (dropoffs + 1) pickups
      else
        false
    | StopType.pickup =>
      if dropoffs < minDrops then
        false
      else if pickups + 1 > dropoffs + bound then
        false
      else
        validAux bound minDrops rest (insert s.request.rid seen) dropoffs (pickups + 1)

/-- The permutation validity filter of `travel`
(`road_network.py`, `is_valid_permutation`). -/
def is_valid_permutation (v : Vehicle α) (new_requests : List (Request α)) (cap : ℕ)
    (perm : List (Stop α)) : Bool :=
  if v.trip_set.isEmpty then
    validAux cap 0 perm ∅ 0 0
  else
    validAux v.trip_set.length (minDropsFor v new_requests cap) perm
      (v.trip_set.map (fun r => r.rid)).toFinset 0 v.trip_set.length

/-- Travel-time simulation along a stop order (`road_network.py`, the
inner loop of `travel`).  Accumulates travel times, rejecting on an
unreachable leg, an arrival after a pickup deadline `t_r^pl`, or an
arrival after a drop-off deadline `t_r^* + max_delay`.  Returns the
accumulated total cost on success. -/
def simulate (tt : Node → Node → Option α) (max_delay : α) :
    Node → α → α → List (Stop α) → Option α
  | _, _, cost, [] => some cost
  | pos, time, cost, s :: rest =>
    match tt pos s.node with
    | none => none
    | some τ =>
      let time' := time + τ
      let cost' := cost + τ
      if s.type = StopType.pickup ∧ s.request.t_pl < time' then
        none
      else if s.type = StopType.dropoff ∧ s.request.t_star + max_delay < time' then
        none
      else
        simulate tt max_delay s.node time' cost' rest

/-- The minimum tracking loop of `travel`: scan the valid permutations,
keep the first strictly cheaper simulated sequence.  `none` plays the
role of the initial `(None, float inf)` state. -/
def travelFold (tt : Node → Node → Option α) (max_delay : α) (start : Node) (t0 : α) :
    List (List (Stop α)) → Option (List (Stop α) × α) → Option (List (Stop α) × α)
  | [], best => best
  | p :: rest, best =>
    match simulate tt max_delay start t0 0 p with
    | none => travelFold tt max_delay start t0 rest best
    | some c =>
      match best with
      | none => travelFold tt max_delay start t0 rest (some (p, c))
      | some (bp, bc) =>
        if c < bc then travelFold tt max_delay start t0 rest (some (p, c))
        else travelFold tt max_delay start t0 rest (some (bp, bc))

/-- All ways of inserting an element into a list. -/
def insertions (a : β) : List β → List (List β)
  | [] => [[a]]
  | b :: l => (a :: b :: l) :: (insertions a l).map (fun t => b :: t)

/-- All permutations of a list, by structural recursion. -/
def permsOf : List β → List (List β)
  | [] => [[]]
  | a :: l => (permsOf l).flatMap (insertions a)

/-- The trip feasibility oracle `travel` of `road_network.py`.  The
permutation enumeration `permsOf` lists the same stop orders as Python
`itertools.permutations`, only in a different order, which can change at
most which of several equally cheap sequences is kept. -/
def travel (tt : Node → Node → Option α) (v : Vehicle α) (new_requests : List (Request α))
    (cap : ℕ) (max_delay : α) : TravelResult α :=
  if new_requests.isEmpty ∧ v.trip_set.isEmpty then
    TravelResult.infeasible
  else if new_requests.isEmpty then
    TravelResult.plan v.trip_set 0
  else
    match travelFold tt max_delay v.q_v v.t_v
        ((permsOf (stopsOf v new_requests)).filter
          (is_valid_permutation v new_requests cap)) none with
    | some (p, c) => TravelResult.seq p c
    | none => TravelResult.infeasible

/-! ## Specification-side predicates for the travel oracle

These restate the constraints of the specification (precedence, capacity,
onboard-first, deadlines, reachability) directly over prefixes of a stop
sequence, independently of the mechanics of `is_valid_permutation` and
`simulate`. -/

/-- All decompositions of a list into a prefix and the matching suffix. -/
def splits : List α → List (List α × List α)
  | [] => [([], [])]
  | a :: l => ([], a :: l) :: (splits l).map (fun pr => (a :: pr.1, pr.2))

/-- Number of PICKUP stops in a list. -/
def cntP (p : List (Stop α)) : ℕ := p.countP (fun s => s.type = StopType.pickup)

/-- Number of DROPOFF stops in a list. -/
def cntD (p : List (Stop α)) : ℕ := p.countP (fun s => s.type = StopType.dropoff)

/-- Precedence: every DROPOFF of a new request is preceded by a PICKUP of
that same request. -/
def precedenceAll (new_requests : List (Request α)) (p : List (Stop α)) : Bool :=
  (splits p).all (fun pr =>
    match pr.2 with
    | [] => true
    | s :: _ =>
      if s.type = StopType.dropoff ∧ s.request ∈ new_requests then
        pr.1.any (fun s' => s'.type = StopType.pickup ∧ s'.request = s.request)
      else
        true)

/-- Onboard-first: no PICKUP appears before at least `minDrops` DROPOFFs
have occurred. -/
def onboardFirstOk (minDrops : ℕ) (p : List (Stop α)) : Bool :=
  (splits p).all (fun pr =>
    match pr.2 with
    | [] => true
    | s :: _ =>
      if s.type = StopType.pickup then minDrops ≤ cntD pr.1 else true)

/-- The capacity constraint of the specification: at every prefix the
instantaneous load `nOnboard + pickups − dropoffs` is at most `cap`
(stated without subtraction). -/
def capacityOk (nOnboard cap : ℕ) (p : List (Stop α)) : Bool :=
  (splits p).all (fun pr => nOnboard + cntP pr.1 ≤ cap + cntD pr.1)

/-- The occupancy rule the code actually enforces: with an empty onboard
set, at every prefix `pickups ≤ dropoffs + cap`; with a nonempty onboard
set, at every prefix `pickups ≤ dropoffs` (new pickups never outnumber
drop-offs). -/
def codeOccupancy (v : Vehicle α) (cap : ℕ) (p : List (Stop α)) : Bool :=
  if v.trip_set.isEmpty then
    (splits p).all (fun pr => cntP pr.1 ≤ cntD pr.1 + cap)
  else
    (splits p).all (fun pr => cntP pr.1 ≤ cntD pr.1)

/-- Deadline and reachability constraints, by direct simulation of the
legs: every consecutive leg is reachable, every PICKUP arrival is at most
`t_r^pl` and every DROPOFF arrival is at most `t_r^* + max_delay`. -/
def legsOk (tt : Node → Node → Option α) (max_delay : α) :
    Node → α → List (Stop α) → Bool
  | _, _, [] => true
  | pos, time, s :: rest =>
    match tt pos s.node with
    | none => false
    | some τ =>
      (if s.type = StopType.pickup then
        decide (time + τ ≤ s.request.t_pl)
      else
        decide (time + τ ≤ s.request.t_star + max_delay))
        && legsOk tt max_delay s.node (time + τ) rest

/-- Sum of the shortest-path travel times of the consecutive legs of a
stop sequence, `none` when some leg is unreachable. -/
def tripCost (tt : Node → Node → Option α) : Node → List (Stop α) → Option α
  | _, [] => some 0
  | pos, s :: rest =>
    match tt pos s.node with
    | none => none
    | some τ => (tripCost tt s.node rest).map (fun c => τ + c)

/-- A stop ordering satisfying every constraint named by the
specification of `travel`: it is an ordering of the stop multiset,
respects precedence, capacity, onboard-first, and the deadline and
reachability checks. -/
def specValid (tt : Node → Node → Option α) (v : Vehicle α) (new_requests : List (Request α))
    (cap : ℕ) (max_delay : α) (p : List (Stop α)) : Bool :=
  decide (p.Perm (stopsOf v new_requests))
    && precedenceAll new_requests p
    && capacityOk v.trip_set.length cap p
    && onboardFirstOk (minDropsFor v new_requests cap) p
    && legsOk tt max_delay v.q_v v.t_v p

/-- A stop ordering satisfying the constraints the code actually
enforces: as `specValid`, but with the capacity constraint replaced by
the occupancy rule of `codeOccupancy`. -/
def amendedValid (tt : Node → Node → Option α) (v : Vehicle α) (new_requests : List (Request α))
    (cap : ℕ) (max_delay : α) (p : List (Stop α)) : Bool :=
  decide (p.Perm (stopsOf v new_requests))
    && precedenceAll new_requests p
    && codeOccupancy v cap p
    && onboardFirstOk (minDropsFor v new_requests cap) p
    && legsOk tt max_delay v.q_v v.t_v p

/-! ## RV graph construction, from rv_graph.py -/

/-- RV graph node identifier.  Python uses string ids where request ids
start with the letter r and vehicle ids with the letter v; the test
`node.startswith r` of the pruning pass is the `req` case here. -/
inductive RVNodeId where
  | req (rid : ℕ)
  | veh (vid : ℕ)
deriving DecidableEq, Repr

/-- Edge kind attribute `edge_type` of the RV graph. -/
inductive RVEdgeType where
  | rr
  | rv
deriving DecidableEq, Repr

/-- An RV graph edge with its attributes; VR edges additionally carry
the stop sequence returned by the oracle. -/
structure RVEdge (α : Type) where
  u : RVNodeId
  v : RVNodeId
  travel_time : α
  stops : Option (List (Stop α))
  edge_type : RVEdgeType
deriving DecidableEq, Repr

/-- The RV graph: node list and edge list, both in Python insertion
order (request nodes, then vehicle nodes; VR edges, then RR edges). -/
structure RVGraph (α : Type) where
  nodes : List RVNodeId
  edges : List (RVEdge α)
deriving DecidableEq, Repr

/-- Python `node.startswith("r")` on the string id. -/
def isReqNode : RVNodeId → Bool
  | RVNodeId.req _ => true
  | RVNodeId.veh _ => false

/-- Edge incidence at a node (networkx `edges(node)`). -/
def incident (n : RVNodeId) (e : RVEdge α) : Bool :=
  e.u = n || e.v = n

/-- Stable insertion of an edge into a travel-time-sorted edge list. -/
def insertByTime (e : RVEdge α) : List (RVEdge α) → List (RVEdge α)
  | [] => [e]
  | x :: xs =>
    if e.travel_time ≤ x.travel_time then e :: x :: xs
    else x :: insertByTime e xs

/-- Stable sort of edges by nondecreasing `travel_time` (the Python
`sorted` on the cost key; stability preserves the adjacency order among
ties, as in Python). -/
def sortByTime : List (RVEdge α) → List (RVEdge α)
  | [] => []
  | x :: xs => insertByTime x (sortByTime xs)

/-- One iteration of the pruning loop of `prune_edges` in
`rv_graph.py`: collect the incident edges of the node's own kind (RR for
request nodes, RV otherwise), and when more than `top_k` remain, drop
all but the `top_k` of smallest `travel_time`.  Removals are visible to
the later iterations, as in the Python in-place mutation of the copied
graph. -/
def pruneStep (top_k : ℕ) (edges : List (RVEdge α)) (n : RVNodeId) : List (RVEdge α) :=
  let kind := if isReqNode n then RVEdgeType.rr else RVEdgeType.rv
  let mine := edges.filter (fun e => incident n e && e.edge_type = kind)
  if top_k < mine.length then
    let sorted := sortByTime mine
    let toRemove := sorted.drop top_k
    edges.filter (fun e => !decide (e ∈ toRemove))
  else
    edges

/-- The helper `prune_edges` defined inside `generate_rv_graph`. -/
def pruneEdgesFn (g : RVGraph α) (top_k : ℕ) : RVGraph α :=
  { g with edges := g.nodes.foldl (pruneStep top_k) g.edges }

/-- The RR edge criterion of `generate_rv_graph` (lines 101 to 114 of
`rv_graph.py`), translated literally.  The Python local `o1d1` is
assigned the shortest travel time from the origin of the first request
to the origin of the second request, the same query as `o1o2`; the
binding is kept as the source wrote it.  If any of the five shortest
path queries raises no-path, the pair is skipped. -/
def rr_edge (tt : Node → Node → Option α) (current_time max_delay : α)
    (req1 req2 : Request α) : Bool :=
  match tt req1.o_r req2.o_r, tt req1.d_r req2.o_r, tt req2.o_r req2.d_r,
      tt req1.o_r req2.o_r, tt req1.d_r req2.d_r with
  | some o1d1, some d1o2, some o2d2, some o1o2, some d1d2 =>
    let max_delay_req1 := req1.t_star + max_delay
    let max_delay_req2 := req2.t_star + max_delay
    decide (current_time + o1d1 ≤ max_delay_req1
        ∧ current_time + o1d1 + d1o2 ≤ req2.t_pl
        ∧ current_time + o1d1 + d1o2 + o2d2 ≤ max_delay_req2)
      || decide (current_time + o1o2 ≤ req2.t_pl
        ∧ current_time + o1o2 + o2d2 ≤ max_delay_req2
        ∧ current_time + o1o2 + o2d2 + d1d2 ≤ max_delay_req1)
      || decide (current_time + o1o2 ≤ req2.t_pl
        ∧ current_time + o1o2 + d1o2 ≤ max_delay_req1
        ∧ current_time + o1o2 + d1o2 + d1d2 ≤ max_delay_req2)
  | _, _, _, _, _ => false

/-- The VR edges of the RV graph: for each vehicle with spare capacity
and each request, an edge when the oracle finds a valid trip, weighted
by the trip cost and carrying the stop sequence. -/
def vrEdges (tt : Node → Node → Option α) (vehicles : List (Vehicle α))
    (requests : List (Request α)) (cap : ℕ) (max_delay : α) : List (RVEdge α) :=
  vehicles.flatMap (fun vehicle =>
    if cap ≤ vehicle.passengers then
      []
    else
      requests.filterMap (fun request =>
        match travel tt vehicle [request] cap max_delay with
        | TravelResult.seq p c =>
          some ⟨RVNodeId.veh vehicle.vid, RVNodeId.req request.rid, c, some p, RVEdgeType.rv⟩
        | _ => none))

/-- Unordered pairs in the order of Python `itertools.combinations`. -/
def pairsOf : List α → List (α × α)
  | [] => []
  | a :: l => l.map (fun b => (a, b)) ++ pairsOf l

/-- The RR edges of the RV graph, weighted by the shortest travel time
between the two origins. -/
def rrEdges (tt : Node → Node → Option α) (requests : List (Request α))
    (current_time max_delay : α) : List (RVEdge α) :=
  (pairsOf requests).filterMap (fun pr =>
    if rr_edge tt current_time max_delay pr.1 pr.2 then
      match tt pr.1.o_r pr.2.o_r with
      | some o1o2 => some ⟨RVNodeId.req pr.1.rid, RVNodeId.req pr.2.rid, o1o2, none, RVEdgeType.rr⟩
      | none => none
    else
      none)

/-- The RV graph builder `generate_rv_graph` of `rv_graph.py`.  In the
Python source the helper function defined inside the builder shadows the
boolean parameter of the same name, so the final test sees the function
object, which is always truthy: the pruning pass therefore runs
unconditionally and the boolean parameter is dead.  The embedding keeps
that behavior; the unused flag is the `_prune_edges` argument. -/
def generate_rv_graph (tt : Node → Node → Option α) (vehicles : List (Vehicle α))
    (requests : List (Request α)) (current_time : α) (cap : ℕ) (max_delay : α)
    (_prune_edges : Bool) (top_k : ℕ) : RVGraph α :=
  let nodes := requests.map (fun r => RVNodeId.req r.rid)
    ++ vehicles.map (fun v => RVNodeId.veh v.vid)
  let g : RVGraph α :=
    ⟨nodes, vrEdges tt vehicles requests cap max_delay
      ++ rrEdges tt requests current_time max_delay⟩
  pruneEdgesFn g top_k

/-! ## Specification-side RR criterion

The claim describes three composite orderings executed by a hypothetical
empty vehicle starting at the first origin at the current time, each stop
checked against its own deadline. -/

/-- Prefix-sum deadline checks: starting from clock `t`, traverse legs of
given durations and require each arrival to be at most its deadline. -/
def ordFeas : α → List (α × α) → Bool
  | _, [] => true
  | t, leg :: rest => decide (t + leg.1 ≤ leg.2) && ordFeas (t + leg.1) rest

/-- The RR criterion as the claim states it: some of the three composite
orderings is executable with every visited stop (including the pickup of
the first request, visited at the current time) meeting its own
deadline. -/
def rr_edge_spec (tt : Node → Node → Option α) (current_time max_delay : α)
    (r1 r2 : Request α) : Bool :=
  decide (current_time ≤ r1.t_pl)
    && (legsOk tt max_delay r1.o_r current_time
          [⟨StopType.dropoff, r1.d_r, r1⟩, ⟨StopType.pickup, r2.o_r, r2⟩,
            ⟨StopType.dropoff, r2.d_r, r2⟩]
      || legsOk tt max_delay r1.o_r current_time
          [⟨StopType.pickup, r2.o_r, r2⟩, ⟨StopType.dropoff, r2.d_r, r2⟩,
            ⟨StopType.dropoff, r1.d_r, r1⟩]
      || legsOk tt max_delay r1.o_r current_time
          [⟨StopType.pickup, r2.o_r, r2⟩, ⟨StopType.dropoff, r1.d_r, r1⟩,
            ⟨StopType.dropoff, r2.d_r, r2⟩])

/-- The RR criterion the code actually implements, stated as prefix-sum
deadline checks over the five computed shortest travel times: the pickup
of the first request is never checked, the last two orderings check each
remaining stop against its own deadline using the travel times the code
fetched for them, and the first ordering uses the origin-to-origin time
in place of the pickup-to-dropoff leg of the first request. -/
def rr_edge_amended (tt : Node → Node → Option α) (current_time max_delay : α)
    (r1 r2 : Request α) : Bool :=
  match tt r1.o_r r2.o_r, tt r1.d_r r2.o_r, tt r2.o_r r2.d_r, tt r1.d_r r2.d_r with
  | some o1o2, some d1o2, some o2d2, some d1d2 =>
    ordFeas current_time
        [(o1o2, r1.t_star + max_delay), (d1o2, r2.t_pl), (o2d2, r2.t_star + max_delay)]
      || ordFeas current_time
        [(o1o2, r2.t_pl), (o2d2, r2.t_star + max_delay), (d1d2, r1.t_star + max_delay)]
      || ordFeas current_time
        [(o1o2, r2.t_pl), (d1o2, r1.t_star + max_delay), (d1d2, r2.t_star + max_delay)]
  | _, _, _, _ => false

/-! ## RTV graph data and the greedy seed, from problem_formulation.py

The RTV graph itself is built elsewhere; the solver code consumes it.
The embedding identifies a trip node's request-set attribute with its
request neighbors, which is how the specification defines the T to R
edges (one per member of the trip). -/

/-- A trip node of the RTV graph: its id and its set of request ids. -/
structure Trip where
  tid : ℕ
  requests : Finset ℕ
deriving DecidableEq

/-- The RTV graph as consumed by the solver: trip nodes, vehicle node
ids, and the trip-to-vehicle edge weights (`none` when there is no
edge). -/
structure RTVGraph where
  trips : List Trip
  vehicleNodes : List ℕ
  cost : ℕ → ℕ → Option ℚ

/-- Relative cost used by the greedy selection: trip cost divided by the
number of requests in the trip. -/
def relCost (c : ℚ) (T : Trip) : ℚ :=
  c / (T.requests.card : ℚ)

/-- The candidate pairs scanned by one round of the greedy loop:
unassigned vehicles paired with neighboring trips none of whose requests
are already served, with their relative cost. -/
def eligibleList (g : RTVGraph) (unassigned : List ℕ) (served : Finset ℕ) :
    List (ℕ × Trip × ℚ) :=
  unassigned.flatMap (fun vid =>
    g.trips.filterMap (fun T =>
      match g.cost T.tid vid with
      | none => none
      | some c =>
        if (T.requests ∩ served).Nonempty then none
        else some (vid, T, relCost c T)))

/-- The strict-minimum scan of the greedy round, starting from
`(None, float inf)`. -/
def findBest : List (ℕ × Trip × ℚ) → Option (ℕ × Trip) → WithTop ℚ →
    Option (ℕ × Trip)
  | [], best, _ => best
  | cand :: rest, best, mc =>
    if (cand.2.2 : WithTop ℚ) < mc then findBest rest (some (cand.1, cand.2.1)) cand.2.2
    else findBest rest best mc

/-- The while loop of `greedy_assignment`; the fuel is the size of the
unassigned pool, which strictly shrinks at every assignment. -/
def greedyLoop (g : RTVGraph) : ℕ → List ℕ → Finset ℕ → List (ℕ × Trip)
  | 0, _, _ => []
  | fuel + 1, unassigned, served =>
    match findBest (eligibleList g unassigned served) none ⊤ with
    | none => []
    | some (vid, T) =>
      (vid, T) :: greedyLoop g fuel (unassigned.erase vid) (served ∪ T.requests)

/-- The greedy seed `greedy_assignment` of `problem_formulation.py`:
start from the vehicles with at least one RTV edge and repeatedly assign
a minimum relative-cost eligible pair.  The result lists the assignment
in insertion order. -/
def greedy_assignment (g : RTVGraph) (vehicles : List ℕ) : List (ℕ × Trip) :=
  let pool := vehicles.filter (fun vid => g.trips.any (fun T => (g.cost T.tid vid).isSome))
  greedyLoop g pool.length pool ∅

/-- Eligibility of a pair at a greedy state, as the claim describes it:
the vehicle is still unassigned, the trip is a neighboring trip node,
and none of its requests have been served. -/
def eligiblePair (g : RTVGraph) (pool : List ℕ) (served : Finset ℕ)
    (vid : ℕ) (T : Trip) (c : ℚ) : Prop :=
  vid ∈ pool ∧ T ∈ g.trips ∧ g.cost T.tid vid = some c ∧ T.requests ∩ served = ∅

/-- The process the claim describes: repeatedly select an eligible pair
of minimum relative cost, mark its requests served and retire the
vehicle, stopping exactly when no eligible pair remains. -/
inductive GreedyTrace (g : RTVGraph) : List ℕ → Finset ℕ → List (ℕ × Trip) → Prop
  | nil (pool : List ℕ) (served : Finset ℕ)
      (hstop : ∀ vid T c, ¬ eligiblePair g pool served vid T c) :
      GreedyTrace g pool served []
  | cons (pool : List ℕ) (served : Finset ℕ) (vid : ℕ) (T : Trip) (c : ℚ)
      (rest : List (ℕ × Trip))
      (helig : eligiblePair g pool served vid T c)
      (hmin : ∀ vid' T' c', eligiblePair g pool served vid' T' c' →
        relCost c T ≤ relCost c' T')
      (hrest : GreedyTrace g (pool.erase vid) (served ∪ T.requests) rest) :
      GreedyTrace g pool served ((vid, T) :: rest)

/-! ## The ILP model built by assignment_ilp

Solving is delegated to an external MIP solver; the embedding captures
what `assignment_ilp` builds (variables, constraints, objective) as
functions of an arbitrary 0/1 valuation, together with the extraction of
the returned assignment from a solved valuation. -/

/-- The epsilon variable index set: one binary variable per pair of a
trip node and a neighboring vehicle node, in the order the Python loops
create them. -/
def epsilonKeys (g : RTVGraph) : List (ℕ × ℕ) :=
  g.trips.flatMap (fun T =>
    (g.vehicleNodes.filter (fun vid => (g.cost T.tid vid).isSome)).map
      (fun vid => (T.tid, vid)))

/-- The edge list Python builds for the per-vehicle constraint: the
epsilon keys whose vehicle component is the given vehicle. -/
def vehicleEdges (g : RTVGraph) (vid : ℕ) : List (ℕ × ℕ) :=
  (epsilonKeys g).filter (fun e => e.2 = vid)

/-- The neighbors of a trip node in the RTV graph: its vehicle
neighbors and its member requests (the T to R edges). -/
def tripNeighbors (g : RTVGraph) (T : Trip) : List ℕ :=
  g.vehicleNodes.filter (fun vid => (g.cost T.tid vid).isSome)
    ++ T.requests.sort (fun a b => a ≤ b)

/-- The edge list Python builds for the per-request constraint: for each
trip containing the request, the neighbors of the trip kept when the
pair is an epsilon key. -/
def relevantEdges (g : RTVGraph) (rid : ℕ) : List (ℕ × ℕ) :=
  (g.trips.filter (fun T => rid ∈ T.requests)).flatMap (fun T =>
    (tripNeighbors g T).filterMap (fun n =>
      if (T.tid, n) ∈ epsilonKeys g then some (T.tid, n) else none))

/-- Value of a binary variable under a 0/1 valuation. -/
def qOf (b : Bool) : ℚ := if b then 1 else 0

/-- The constraint system `assignment_ilp` imposes on the binary
valuations `σ` (epsilon) and `χ` (chi): for every vehicle the sum of its
epsilon variables is at most one, and for every request the sum over its
relevant edges plus its chi variable equals one. -/
def ilpConstraints (g : RTVGraph) (vehicleIds requestIds : List ℕ)
    (σ : ℕ × ℕ → Bool) (χ : ℕ → Bool) : Prop :=
  (∀ vid ∈ vehicleIds, (vehicleEdges g vid).countP σ ≤ 1)
    ∧ (∀ rid ∈ requestIds, (relevantEdges g rid).countP σ + (if χ rid then 1 else 0) = 1)

/-- The objective `assignment_ilp` minimizes: trip costs of the selected
epsilon variables plus the penalty for each unserved request. -/
def ilpObjective (g : RTVGraph) (requestIds : List ℕ) (P : ℚ)
    (σ : ℕ × ℕ → Bool) (χ : ℕ → Bool) : ℚ :=
  ((epsilonKeys g).map (fun e => ((g.cost e.1 e.2).getD 0) * qOf (σ e))).sum
    + (requestIds.map (fun rid => P * qOf (χ rid))).sum

/-- The extraction loop of `assignment_ilp`: scan the epsilon variables
in creation order and record trip against vehicle for each variable set
to one; the Python dictionary keeps the last write per vehicle. -/
def extractAssignment (keys : List (ℕ × ℕ)) (σ : ℕ × ℕ → Bool) (vid : ℕ) :
    Option ℕ :=
  ((keys.filter (fun e => σ e && e.2 = vid)).getLast?).map (fun e => e.1)

/-- The per-vehicle constraint sum as the claim writes it: over the
trips with an edge to the vehicle. -/
def claimVehicleLHS (g : RTVGraph) (σ : ℕ × ℕ → Bool) (vid : ℕ) : ℕ :=
  ((g.trips.filter (fun T => (g.cost T.tid vid).isSome)).map
    (fun T => if σ (T.tid, vid) then 1 else 0)).sum

/-- The per-request constraint sum as the claim writes it: epsilon over
the trip-vehicle pairs whose trip contains the request, plus chi. -/
def claimRequestLHS (g : RTVGraph) (σ : ℕ × ℕ → Bool) (χ : ℕ → Bool) (rid : ℕ) : ℕ :=
  ((g.trips.filter (fun T => rid ∈ T.requests)).map (fun T =>
    ((g.vehicleNodes.filter (fun v => (g.cost T.tid v).isSome)).map
      (fun v => if σ (T.tid, v) then 1 else 0)).sum)).sum
    + (if χ rid then 1 else 0)

/-- The objective as the claim writes it: cost times epsilon summed over
trip-vehicle edges, plus the penalty times chi summed over requests. -/
def claimObjective (g : RTVGraph) (requestIds : List ℕ) (P : ℚ)
    (σ : ℕ × ℕ → Bool) (χ : ℕ → Bool) : ℚ :=
  (g.trips.map (fun T =>
    ((g.vehicleNodes.filter (fun v => (g.cost T.tid v).isSome)).map
      (fun v => ((g.cost T.tid v).getD 0) * qOf (σ (T.tid, v)))).sum)).sum
    + P * (requestIds.map (fun rid => qOf (χ rid))).sum

/-! ## Concrete instances used by witnesses and counterexamples

A small symmetric road network over nodes 0 to 3 with self loops of
travel time zero, plus a handful of requests and vehicles. -/

/-- Concrete travel times: 0 to 1, 1 to 2 and 2 to 3 cost 10; 0 to 2
costs 100; 1 to 3 costs 20; 0 to 3 costs 30; symmetric; self loops cost
0; every other pair is unreachable. -/
def ttW : Node → Node → Option ℤ := fun u v =>
  if u = v then some 0
  else if (u, v) = (0, 1) ∨ (v, u) = (0, 1) then some 10
  else if (u, v) = (1, 2) ∨ (v, u) = (1, 2) then some 10
  else if (u, v) = (2, 3) ∨ (v, u) = (2, 3) then some 10
  else if (u, v) = (0, 2) ∨ (v, u) = (0, 2) then some 100
  else if (u, v) = (1, 3) ∨ (v, u) = (1, 3) then some 20
  else if (u, v) = (0, 3) ∨ (v, u) = (0, 3) then some 30
  else none

/-- A request from node 0 to node 1 with loose deadlines. -/
def rW : Request ℤ := ⟨1, 0, 1, 600, 10⟩

/-- An empty vehicle at node 0. -/
def vEmptyW : Vehicle ℤ := ⟨1, 0, 0, 0, []⟩

/-- An onboard request heading to node 1 (origin irrelevant). -/
def rOnW : Request ℤ := ⟨7, 9, 1, 0, 0⟩

/-- A new request from node 1 to node 2 with loose deadlines. -/
def rNewW : Request ℤ := ⟨8, 1, 2, 600, 0⟩

/-- A vehicle at node 0 carrying `rOnW`. -/
def vOnW : Vehicle ℤ := ⟨3, 0, 0, 1, [rOnW]⟩

/-- Onboard request of the oracle divergence instance: destination 2. -/
def rOnC : Request ℤ := ⟨5, 9, 2, 0, 0⟩

/-- New request of the oracle divergence instance: from node 1 to node
3, pickup deadline 20. -/
def rNewC : Request ℤ := ⟨6, 1, 3, 20, 0⟩

/-- Vehicle of the oracle divergence instance: at node 0, carrying
`rOnC`. -/
def vOnC : Vehicle ℤ := ⟨2, 0, 0, 1, [rOnC]⟩

/-- A stop ordering for `(vOnC, [rNewC])` that meets every constraint
of the specification: pick up the new request first (arrival 10, within
its deadline 20), then the committed drop-off (arrival 20), then the new
drop-off (arrival 30). -/
def pC : List (Stop ℤ) :=
  [⟨StopType.pickup, 1, rNewC⟩, ⟨StopType.dropoff, 2, rOnC⟩, ⟨StopType.dropoff, 3, rNewC⟩]

/-- First request of the RR divergence instance: from 0 to 1, pickup
deadline 50, loose drop-off deadline. -/
def rrA : Request ℤ := ⟨1, 0, 1, 50, 1000⟩

/-- Second request of the RR divergence instance: from 2 to 3, loose
deadlines. -/
def rrB : Request ℤ := ⟨2, 2, 3, 1000, 1000⟩

/-- First request of the pruning instance: from 0 to 1, loose
deadlines. -/
def rvA : Request ℤ := ⟨1, 0, 1, 1000, 1000⟩

/-- Second request of the pruning instance: from 2 to 3, loose
deadlines. -/
def rvB : Request ℤ := ⟨2, 2, 3, 1000, 1000⟩

/-- A trip node over requests 1 and 2. -/
def tripW1 : Trip := ⟨1, {1, 2}⟩

/-- A trip node over request 2 alone. -/
def tripW2 : Trip := ⟨2, {2}⟩

/-- A small RTV graph: two trips, two vehicles, three weighted edges. -/
def gW : RTVGraph :=
  ⟨[tripW1, tripW2], [10, 11], fun t v =>
    if (t, v) = (1, 10) then some 30
    else if (t, v) = (2, 11) then some 20
    else if (t, v) = (2, 10) then some 5
    else none⟩

/-- A 0/1 valuation of the epsilon variables of `gW` selecting the edge
from trip 2 to vehicle 11. -/
def σW : ℕ × ℕ → Bool := fun e => decide (e = (2, 11))

/-- A 0/1 valuation of the chi variables of `gW` marking request 1
unserved. -/
def χW : ℕ → Bool := fun r => decide (r = 1)

/-- The stop sequence the oracle returns for `(vOnW, [rNewW])`. -/
def pOnW : List (Stop ℤ) :=
  [⟨StopType.dropoff, 1, rOnW⟩, ⟨StopType.pickup, 1, rNewW⟩, ⟨StopType.dropoff, 2, rNewW⟩]

/-- The stop sequence the oracle returns for `(vEmptyW, [rW])`. -/
def pEmptyW : List (Stop ℤ) :=
  [⟨StopType.pickup, 0, rW⟩, ⟨StopType.dropoff, 1, rW⟩]

/-! ## Basic lemmas about the helper definitions -/

theorem mem_splits {α : Type} {l pre suf : List α} :
    (pre, suf) ∈ splits l ↔ l = pre ++ suf := by
  induction l generalizing pre with
  | nil =>
    simp only [splits, List.mem_singleton, Prod.mk.injEq]
    constructor
    · rintro ⟨h1, h2⟩
      subst h1; subst h2; rfl
    · intro h
      rcases List.append_eq_nil.mp h.symm with ⟨h1, h2⟩
      exact ⟨h1, h2⟩
  | cons a l ih =>
    simp only [splits, List.mem_cons, List.mem_map, Prod.mk.injEq]
    constructor
    · rintro (⟨h1, h2⟩ | ⟨⟨pr1, pr2⟩, hmem, h1, h2⟩)
      · subst h1; subst h2; rfl
      · subst h1; subst h2
        simpa using congrArg (fun t => a :: t) (ih.mp hmem)
    · intro h
      cases pre with
      | nil => exact Or.inl ⟨rfl, by simpa using h.symm⟩
      | cons b pre' =>
        rcases List.cons_eq_cons.mp h with ⟨hb, hl⟩
        exact Or.inr ⟨(pre', suf), ih.mpr hl, by rw [hb], rfl⟩

theorem precedenceAll_iff {N : List (Request α)} {p : List (Stop α)} :
    precedenceAll N p = true ↔
      ∀ pre s suf, p = pre ++ s :: suf → s.type = StopType.dropoff →
        s.request ∈ N →
        ∃ s' ∈ pre, s'.type = StopType.pickup ∧ s'.request = s.request := by
  simp only [precedenceAll, List.all_eq_true]
  constructor
  · intro h pre s suf hp hty hmem
    have hthis := h (pre, s :: suf) (mem_splits.mpr hp)
    have hc : s.type = StopType.dropoff ∧ s.request ∈ N := ⟨hty, hmem⟩
    dsimp only at hthis
    rw [if_pos hc, List.any_eq_true] at hthis
    simpa using hthis
  · rintro h ⟨pre, suf⟩ hmem
    have hp := mem_splits.mp hmem
    cases suf with
    | nil => simp
    | cons s suf' =>
      by_cases hc : s.type = StopType.dropoff ∧ s.request ∈ N
      · simp only [if_pos hc, List.any_eq_true, decide_eq_true_eq]
        exact h pre s suf' hp hc.1 hc.2
      · simp [if_neg hc]

theorem onboardFirstOk_iff {minDrops : ℕ} {p : List (Stop α)} :
    onboardFirstOk minDrops p = true ↔
      ∀ pre s suf, p = pre ++ s :: suf → s.type = StopType.pickup →
        minDrops ≤ cntD pre := by
  simp only [onboardFirstOk, List.all_eq_true]
  constructor
  · intro h pre s suf hp hty
    have hthis := h (pre, s :: suf) (mem_splits.mpr hp)
    dsimp only at hthis
    rw [if_pos hty] at hthis
    simpa using hthis
  · rintro h ⟨pre, suf⟩ hmem
    have hp := mem_splits.mp hmem
    cases suf with
    | nil => simp
    | cons s suf' =>
      by_cases hc : s.type = StopType.pickup
      · simp only [if_pos hc, decide_eq_true_eq]
        exact h pre s suf' hp hc
      · simp [if_neg hc]

theorem capacityOk_iff {nOnboard cap : ℕ} {p : List (Stop α)} :
    capacityOk nOnboard cap p = true ↔
      ∀ pre suf, p = pre ++ suf → nOnboard + cntP pre ≤ cap + cntD pre := by
  simp only [capacityOk, List.all_eq_true]
  constructor
  · intro h pre suf hp
    have := h (pre, suf) (mem_splits.mpr hp)
    simpa using this
  · rintro h ⟨pre, suf⟩ hmem
    simpa using h pre suf (mem_splits.mp hmem)

theorem prefixCount_iff {f : List (Stop α) → ℕ} {g : List (Stop α) → ℕ} {p : List (Stop α)} :
    ((splits p).all (fun pr => f pr.1 ≤ g pr.1)) = true ↔
      ∀ pre suf, p = pre ++ suf → f pre ≤ g pre := by
  simp only [List.all_eq_true]
  constructor
  · intro h pre suf hp
    simpa using h (pre, suf) (mem_splits.mpr hp)
  · rintro h ⟨pre, suf⟩ hmem
    simpa using h pre suf (mem_splits.mp hmem)

/-! ## Lemmas about the minimum tracking fold of travel -/

theorem travelFold_eq_none {tt : Node → Node → Option α} {md : α} {s : Node} {t0 : α} :
    ∀ {perms : List (List (Stop α))} {best : Option (List (Stop α) × α)},
      travelFold tt md s t0 perms best = none ↔
        best = none ∧ ∀ p ∈ perms, simulate tt md s t0 0 p = none := by
  intro perms
  induction perms with
  | nil => intro best; simp [travelFold]
  | cons p rest ih =>
    intro best
    cases hsim : simulate tt md s t0 0 p with
    | none =>
      simp only [travelFold, hsim]
      rw [ih]
      constructor
      · rintro ⟨h1, h2⟩
        exact ⟨h1, by
          intro q hq
          rcases List.mem_cons.mp hq with h | h
          · rw [h]; exact hsim
          · exact h2 q h⟩
      · rintro ⟨h1, h2⟩
        exact ⟨h1, fun q hq => h2 q (List.mem_cons_of_mem _ hq)⟩
    | some c =>
      simp only [travelFold, hsim]
      cases best with
      | none =>
        rw [ih]
        constructor
        · rintro ⟨h, _⟩; exact absurd h (by simp)
        · rintro ⟨_, h2⟩
          exact absurd (h2 p (List.mem_cons_self _ _)) (by simp [hsim])
      | some bb =>
        rcases bb with ⟨bp, bc⟩
        by_cases hlt : c < bc
        · simp only [if_pos hlt]
          rw [ih]
          constructor
          · rintro ⟨h, _⟩; exact absurd h (by simp)
          · rintro ⟨h, _⟩; exact absurd h (by simp)
        · simp only [if_neg hlt]
          rw [ih]
          constructor
          · rintro ⟨h, _⟩; exact absurd h (by simp)
          · rintro ⟨h, _⟩; exact absurd h (by simp)

theorem travelFold_some_spec {tt : Node → Node → Option α} {md : α} {s : Node} {t0 : α} :
    ∀ {perms : List (List (Stop α))} {best : Option (List (Stop α) × α)}
      {res : List (Stop α) × α},
      travelFold tt md s t0 perms best = some res →
        best = some res ∨ (res.1 ∈ perms ∧ simulate tt md s t0 0 res.1 = some res.2) := by
  intro perms
  induction perms with
  | nil =>
    intro best res h
    exact Or.inl (by simpa [travelFold] using h)
  | cons p rest ih =>
    intro best res h
    cases hsim : simulate tt md s t0 0 p with
    | none =>
      simp only [travelFold, hsim] at h
      rcases ih h with h1 | h2
      · exact Or.inl h1
      · exact Or.inr ⟨List.mem_cons_of_mem _ h2.1, h2.2⟩
    | some c =>
      simp only [travelFold, hsim] at h
      cases best with
      | none =>
        rcases ih h with h1 | h2
        · have hpc : (p, c) = res := Option.some.inj h1
          exact Or.inr ⟨by rw [← hpc]; exact List.mem_cons_self _ _, by
            rw [← hpc]; exact hsim⟩
        · exact Or.inr ⟨List.mem_cons_of_mem _ h2.1, h2.2⟩
      | some bb =>
        rcases bb with ⟨bp, bc⟩
        dsimp only at h
        by_cases hlt : c < bc
        · rw [if_pos hlt] at h
          rcases ih h with h1 | h2
          · have hpc : (p, c) = res := Option.some.inj h1
            exact Or.inr ⟨by rw [← hpc]; exact List.mem_cons_self _ _, by
              rw [← hpc]; exact hsim⟩
          · exact Or.inr ⟨List.mem_cons_of_mem _ h2.1, h2.2⟩
        · rw [if_neg hlt] at h
          rcases ih h with h1 | h2
          · exact Or.inl h1
          · exact Or.inr ⟨List.mem_cons_of_mem _ h2.1, h2.2⟩

theorem travelFold_min {tt : Node → Node → Option α} {md : α} {s : Node} {t0 : α} :
    ∀ {perms : List (List (Stop α))} {best : Option (List (Stop α) × α)}
      {res : List (Stop α) × α},
      travelFold tt md s t0 perms best = some res →
        (∀ bp bc, best = some (bp, bc) → res.2 ≤ bc)
          ∧ ∀ p c, p ∈ perms → simulate tt md s t0 0 p = some c → res.2 ≤ c := by
  intro perms
  induction perms with
  | nil =>
    intro best res h
    have h' : best = some res := h
    refine ⟨?_, by simp⟩
    rintro bp bc rfl
    exact le_of_eq (congrArg Prod.snd (Option.some.inj h')).symm
  | cons p rest ih =>
    intro best res h
    cases hsim : simulate tt md s t0 0 p with
    | none =>
      simp only [travelFold, hsim] at h
      rcases ih h with ⟨h1, h2⟩
      refine ⟨h1, ?_⟩
      intro q c hq hsq
      rcases List.mem_cons.mp hq with rfl | hq'
      · rw [hsim] at hsq; exact absurd hsq (by simp)
      · exact h2 q c hq' hsq
    | some c0 =>
      simp only [travelFold, hsim] at h
      cases best with
      | none =>
        rcases ih h with ⟨h1, h2⟩
        have hres : res.2 ≤ c0 := h1 p c0 rfl
        refine ⟨?_, ?_⟩
        · intro bp bc hbb
          exact absurd hbb (by simp)
        · intro q c hq hsq
          rcases List.mem_cons.mp hq with rfl | hq'
          · rw [hsim] at hsq
            exact le_of_le_of_eq hres (Option.some.inj hsq)
          · exact h2 q c hq' hsq
      | some bb =>
        rcases bb with ⟨bp, bc⟩
        dsimp only at h
        by_cases hlt : c0 < bc
        · rw [if_pos hlt] at h
          rcases ih h with ⟨h1, h2⟩
          have hres : res.2 ≤ c0 := h1 p c0 rfl
          refine ⟨?_, ?_⟩
          · intro bp' bc' hbb
            have hbc : bc = bc' := congrArg Prod.snd (Option.some.inj hbb)
            exact hbc ▸ le_trans hres (le_of_lt hlt)
          · intro q c hq hsq
            rcases List.mem_cons.mp hq with rfl | hq'
            · rw [hsim] at hsq
              exact le_of_le_of_eq hres (Option.some.inj hsq)
            · exact h2 q c hq' hsq
        · rw [if_neg hlt] at h
          rcases ih h with ⟨h1, h2⟩
          have hbcle : res.2 ≤ bc := h1 bp bc rfl
          refine ⟨?_, ?_⟩
          · intro bp' bc' hbb
            have hbc : bc = bc' := congrArg Prod.snd (Option.some.inj hbb)
            exact hbc ▸ hbcle
          · intro q c hq hsq
            rcases List.mem_cons.mp hq with rfl | hq'
            · rw [hsim] at hsq
              have hce : c0 = c := Option.some.inj hsq
              have hc0 : bc ≤ c0 := le_of_not_lt hlt
              exact hce ▸ le_trans hbcle hc0
            · exact h2 q c hq' hsq

/-! ## Bridges between simulation, deadline checks, and leg costs -/

theorem simulate_legsOk {tt : Node → Node → Option α} {md : α} :
    ∀ {p : List (Stop α)} {pos : Node} {time cost c : α},
      simulate tt md pos time cost p = some c → legsOk tt md pos time p = true := by
  intro p
  induction p with
  | nil => intro pos time cost c _; rfl
  | cons s rest ih =>
    intro pos time cost c h
    cases htt : tt pos s.node with
    | none => exact absurd h (by simp [simulate, htt])
    | some τ =>
      simp only [simulate, htt] at h
      by_cases h1 : s.type = StopType.pickup ∧ s.request.t_pl < time + τ
      · rw [if_pos h1] at h; exact absurd h (by simp)
      · rw [if_neg h1] at h
        by_cases h2 : s.type = StopType.dropoff ∧ s.request.t_star + md < time + τ
        · rw [if_pos h2] at h; exact absurd h (by simp)
        · rw [if_neg h2] at h
          simp only [legsOk, htt, Bool.and_eq_true]
          refine ⟨?_, ih h⟩
          cases hty : s.type with
          | pickup =>
            rw [if_pos rfl]
            have : ¬ s.request.t_pl < time + τ := fun hlt => h1 ⟨hty, hlt⟩
            simpa using le_of_not_lt this
          | dropoff =>
            rw [if_neg (by simp)]
            have : ¬ s.request.t_star + md < time + τ := fun hlt => h2 ⟨hty, hlt⟩
            simpa using le_of_not_lt this

theorem simulate_some_cost {tt : Node → Node → Option α} {md : α} :
    ∀ {p : List (Stop α)} {pos : Node} {time cost c : α},
      simulate tt md pos time cost p = some c →
        ∃ tc, tripCost tt pos p = some tc ∧ c = cost + tc := by
  intro p
  induction p with
  | nil =>
    intro pos time cost c h
    refine ⟨0, rfl, ?_⟩
    have : cost = c := Option.some.inj h
    simp [← this]
  | cons s rest ih =>
    intro pos time cost c h
    cases htt : tt pos s.node with
    | none => exact absurd h (by simp [simulate, htt])
    | some τ =>
      simp only [simulate, htt] at h
      by_cases h1 : s.type = StopType.pickup ∧ s.request.t_pl < time + τ
      · rw [if_pos h1] at h; exact absurd h (by simp)
      · rw [if_neg h1] at h
        by_cases h2 : s.type = StopType.dropoff ∧ s.request.t_star + md < time + τ
        · rw [if_pos h2] at h; exact absurd h (by simp)
        · rw [if_neg h2] at h
          rcases ih h with ⟨tc', htc', hc⟩
          refine ⟨τ + tc', ?_, ?_⟩
          · simp only [tripCost, htt, htc', Option.map_some']
          · rw [hc]; abel

theorem legsOk_simulate {tt : Node → Node → Option α} {md : α} :
    ∀ {p : List (Stop α)} {pos : Node} {time : α} (cost : α),
      legsOk tt md pos time p = true →
        ∃ tc, tripCost tt pos p = some tc
          ∧ simulate tt md pos time cost p = some (cost + tc) := by
  intro p
  induction p with
  | nil =>
    intro pos time cost _
    exact ⟨0, rfl, by simp [simulate]⟩
  | cons s rest ih =>
    intro pos time cost h
    cases htt : tt pos s.node with
    | none => exact absurd h (by simp [legsOk, htt])
    | some τ =>
      simp only [legsOk, htt, Bool.and_eq_true] at h
      rcases h with ⟨hdl, hrest⟩
      rcases ih (cost + τ) hrest with ⟨tc', htc', hsim⟩
      refine ⟨τ + tc', ?_, ?_⟩
      · simp only [tripCost, htt, htc', Option.map_some']
      · have hnp : ¬ (s.type = StopType.pickup ∧ s.request.t_pl < time + τ) := by
          rintro ⟨hty, hlt⟩
          rw [if_pos hty] at hdl
          exact absurd hlt (not_lt_of_le (by simpa using hdl))
        have hnd : ¬ (s.type = StopType.dropoff ∧ s.request.t_star + md < time + τ) := by
          rintro ⟨hty, hlt⟩
          have : s.type ≠ StopType.pickup := by rw [hty]; simp
          rw [if_neg this] at hdl
          exact absurd hlt (not_lt_of_le (by simpa using hdl))
        simp only [simulate, htt, if_neg hnp, if_neg hnd]
        rw [hsim]
        congr 1
        abel

/-! ## Invariants of the permutation validity filter -/

theorem validAux_precedence {bound minDrops : ℕ} :
    ∀ {l : List (Stop α)} {seen : Finset ℕ} {d0 p0 : ℕ},
      validAux bound minDrops l seen d0 p0 = true →
        ∀ pre s suf, l = pre ++ s :: suf → s.type = StopType.dropoff →
          s.request.rid ∈ seen
            ∨ ∃ s' ∈ pre, s'.type = StopType.pickup ∧ s'.request.rid = s.request.rid := by
  intro l
  induction l with
  | nil =>
    intro seen d0 p0 _ pre s suf hl
    exact absurd hl (by simp)
  | cons a rest ih =>
    intro seen d0 p0 h pre s suf hl hty
    cases pre with
    | nil =>
      simp only [List.nil_append] at hl
      rcases List.cons_eq_cons.mp hl with ⟨hab, hrest⟩
      subst hab
      simp only [validAux, hty] at h
      by_cases hmem : a.request.rid ∈ seen
      · exact Or.inl hmem
      · rw [if_neg hmem] at h; exact absurd h (by simp)
    | cons b pre' =>
      simp only [List.cons_append] at hl
      rcases List.cons_eq_cons.mp hl with ⟨hab, hrest⟩
      subst hab
      cases haty : a.type with
      | dropoff =>
        simp only [validAux, haty] at h
        by_cases hmem : a.request.rid ∈ seen
        · rw [if_pos hmem] at h
          rcases ih h pre' s suf hrest hty with h1 | ⟨s', hs', hty', hrid⟩
          · exact Or.inl h1
          · exact Or.inr ⟨s', List.mem_cons_of_mem _ hs', hty', hrid⟩
        · rw [if_neg hmem] at h; exact absurd h (by simp)
      | pickup =>
        simp only [validAux, haty] at h
        by_cases h1 : d0 < minDrops
        · rw [if_pos h1] at h; exact absurd h (by simp)
        · rw [if_neg h1] at h
          by_cases h2 : p0 + 1 > d0 + bound
          · rw [if_pos h2] at h; exact absurd h (by simp)
          · rw [if_neg h2] at h
            rcases ih h pre' s suf hrest hty with h3 | ⟨s', hs', hty', hrid⟩
            · rcases Finset.mem_insert.mp h3 with h4 | h4
              · exact Or.inr ⟨a, List.mem_cons_self _ _, haty, h4.symm⟩
              · exact Or.inl h4
            · exact Or.inr ⟨s', List.mem_cons_of_mem _ hs', hty', hrid⟩

theorem validAux_minDrops {bound minDrops : ℕ} :
    ∀ {l : List (Stop α)} {seen : Finset ℕ} {d0 p0 : ℕ},
      validAux bound minDrops l seen d0 p0 = true →
        ∀ pre s suf, l = pre ++ s :: suf → s.type = StopType.pickup →
          minDrops ≤ d0 + cntD pre := by
  intro l
  induction l with
  | nil =>
    intro seen d0 p0 _ pre s suf hl
    exact absurd hl (by simp)
  | cons a rest ih =>
    intro seen d0 p0 h pre s suf hl hty
    cases pre with
    | nil =>
      simp only [List.nil_append] at hl
      rcases List.cons_eq_cons.mp hl with ⟨hab, hrest⟩
      subst hab
      simp only [validAux, hty] at h
      by_cases h1 : d0 < minDrops
      · rw [if_pos h1] at h; exact absurd h (by simp)
      · simpa [cntD] using le_of_not_lt h1
    | cons b pre' =>
      simp only [List.cons_append] at hl
      rcases List.cons_eq_cons.mp hl with ⟨hab, hrest⟩
      subst hab
      cases haty : a.type with
      | dropoff =>
        simp only [validAux, haty] at h
        by_cases hmem : a.request.rid ∈ seen
        · rw [if_pos hmem] at h
          have := ih h pre' s suf hrest hty
          have hcnt : cntD (a :: pre') = cntD pre' + 1 := by
            simp [cntD, List.countP_cons, haty]
          omega
        · rw [if_neg hmem] at h; exact absurd h (by simp)
      | pickup =>
        simp only [validAux, haty] at h
        by_cases h1 : d0 < minDrops
        · rw [if_pos h1] at h; exact absurd h (by simp)
        · rw [if_neg h1] at h
          by_cases h2 : p0 + 1 > d0 + bound
          · rw [if_pos h2] at h; exact absurd h (by simp)
          · rw [if_neg h2] at h
            have := ih h pre' s suf hrest hty
            have hcnt : cntD (a :: pre') = cntD pre' := by
              simp [cntD, List.countP_cons, haty]
            omega

theorem validAux_occupancy {bound minDrops : ℕ} :
    ∀ {l : List (Stop α)} {seen : Finset ℕ} {d0 p0 : ℕ},
      validAux bound minDrops l seen d0 p0 = true → p0 ≤ d0 + bound →
        ∀ pre suf, l = pre ++ suf → p0 + cntP pre ≤ d0 + cntD pre + bound := by
  intro l
  induction l with
  | nil =>
    intro seen d0 p0 _ hp0 pre suf hl
    have : pre = [] := by
      rcases List.append_eq_nil.mp hl.symm with ⟨h1, _⟩
      exact h1
    subst this
    simpa [cntP, cntD] using hp0
  | cons a rest ih =>
    intro seen d0 p0 h hp0 pre suf hl
    cases pre with
    | nil =>
      simpa [cntP, cntD] using hp0
    | cons b pre' =>
      simp only [List.cons_append] at hl
      rcases List.cons_eq_cons.mp hl with ⟨hab, hrest⟩
      subst hab
      cases haty : a.type with
      | dropoff =>
        simp only [validAux, haty] at h
        by_cases hmem : a.request.rid ∈ seen
        · rw [if_pos hmem] at h
          have := ih h (by omega) pre' suf hrest
          have hcnt : cntD (a :: pre') = cntD pre' + 1 := by
            simp [cntD, List.countP_cons, haty]
          have hcnt2 : cntP (a :: pre') = cntP pre' := by
            simp [cntP, List.countP_cons, haty]
          omega
        · rw [if_neg hmem] at h; exact absurd h (by simp)
      | pickup =>
        simp only [validAux, haty] at h
        by_cases h1 : d0 < minDrops
        · rw [if_pos h1] at h; exact absurd h (by simp)
        · rw [if_neg h1] at h
          by_cases h2 : p0 + 1 > d0 + bound
          · rw [if_pos h2] at h; exact absurd h (by simp)
          · rw [if_neg h2] at h
            have := ih h (by omega) pre' suf hrest
            have hcnt : cntD (a :: pre') = cntD pre' := by
              simp [cntD, List.countP_cons, haty]
            have hcnt2 : cntP (a :: pre') = cntP pre' + 1 := by
              simp [cntP, List.countP_cons, haty]
            omega

theorem validAux_complete {bound minDrops : ℕ} :
    ∀ {l : List (Stop α)} {seen : Finset ℕ} {d0 p0 : ℕ},
      (∀ pre s suf, l = pre ++ s :: suf → s.type = StopType.dropoff →
        s.request.rid ∈ seen
          ∨ ∃ s' ∈ pre, s'.type = StopType.pickup ∧ s'.request.rid = s.request.rid) →
      (∀ pre s suf, l = pre ++ s :: suf → s.type = StopType.pickup →
        minDrops ≤ d0 + cntD pre) →
      (∀ pre suf, l = pre ++ suf → p0 + cntP pre ≤ d0 + cntD pre + bound) →
      validAux bound minDrops l seen d0 p0 = true := by
  intro l
  induction l with
  | nil => intro seen d0 p0 _ _ _; rfl
  | cons a rest ih =>
    intro seen d0 p0 hprec hmd hocc
    cases haty : a.type with
    | dropoff =>
      have hmem : a.request.rid ∈ seen := by
        rcases hprec [] a rest rfl haty with h1 | ⟨s', hs', _, _⟩
        · exact h1
        · exact absurd hs' (by simp)
      simp only [validAux, haty, if_pos hmem]
      apply ih
      · intro pre s suf hl hty
        rcases hprec (a :: pre) s suf (by rw [hl]; rfl) hty with h1 | ⟨s', hs', hty', hrid⟩
        · exact Or.inl h1
        · rcases List.mem_cons.mp hs' with rfl | hs''
          · exact absurd hty' (by rw [haty]; simp)
          · exact Or.inr ⟨s', hs'', hty', hrid⟩
      · intro pre s suf hl hty
        have := hmd (a :: pre) s suf (by rw [hl]; rfl) hty
        have hcnt : cntD (a :: pre) = cntD pre + 1 := by
          simp [cntD, List.countP_cons, haty]
        omega
      · intro pre suf hl
        have := hocc (a :: pre) suf (by rw [hl]; rfl)
        have hcnt : cntD (a :: pre) = cntD pre + 1 := by
          simp [cntD, List.countP_cons, haty]
        have hcnt2 : cntP (a :: pre) = cntP pre := by
          simp [cntP, List.countP_cons, haty]
        omega
    | pickup =>
      have h1 : ¬ d0 < minDrops := by
        have := hmd [] a rest rfl haty
        simp only [cntD, List.countP_nil] at this
        omega
      have h2 : ¬ p0 + 1 > d0 + bound := by
        have := hocc [a] rest rfl
        have hcnt : cntP [a] = 1 := by simp [cntP, List.countP_cons, haty]
        have hcnt2 : cntD [a] = 0 := by simp [cntD, List.countP_cons, haty]
        omega
      simp only [validAux, haty, if_neg h1, if_neg h2]
      apply ih
      · intro pre s suf hl hty
        rcases hprec (a :: pre) s suf (by rw [hl]; rfl) hty with h3 | ⟨s', hs', hty', hrid⟩
        · exact Or.inl (Finset.mem_insert_of_mem h3)
        · rcases List.mem_cons.mp hs' with rfl | hs''
          · exact Or.inl (by rw [← hrid]; exact Finset.mem_insert_self _ _)
          · exact Or.inr ⟨s', hs'', hty', hrid⟩
      · intro pre s suf hl hty
        have := hmd (a :: pre) s suf (by rw [hl]; rfl) hty
        have hcnt : cntD (a :: pre) = cntD pre := by
          simp [cntD, List.countP_cons, haty]
        omega
      · intro pre suf hl
        have := hocc (a :: pre) suf (by rw [hl]; rfl)
        have hcnt : cntD (a :: pre) = cntD pre := by
          simp [cntD, List.countP_cons, haty]
        have hcnt2 : cntP (a :: pre) = cntP pre + 1 := by
          simp [cntP, List.countP_cons, haty]
        omega

/-! ## The structural permutation enumeration lists exactly the permutations -/

theorem mem_insertions {β : Type} {a : β} :
    ∀ {l q : List β}, q ∈ insertions a l ↔ ∃ l1 l2, l = l1 ++ l2 ∧ q = l1 ++ a :: l2 := by
  intro l
  induction l with
  | nil =>
    intro q
    simp only [insertions, List.mem_singleton]
    constructor
    · intro h
      exact ⟨[], [], rfl, by simpa using h⟩
    · rintro ⟨l1, l2, h1, h2⟩
      rcases List.append_eq_nil.mp h1.symm with ⟨rfl, rfl⟩
      simpa using h2
  | cons b l ih =>
    intro q
    simp only [insertions, List.mem_cons, List.mem_map]
    constructor
    · rintro (rfl | ⟨t, ht, rfl⟩)
      · exact ⟨[], b :: l, rfl, rfl⟩
      · rcases ih.mp ht with ⟨l1, l2, rfl, rfl⟩
        exact ⟨b :: l1, l2, rfl, rfl⟩
    · rintro ⟨l1, l2, h1, h2⟩
      cases l1 with
      | nil =>
        simp only [List.nil_append] at h1 h2
        exact Or.inl (by rw [h2, ← h1])
      | cons x l1' =>
        simp only [List.cons_append] at h1 h2
        rcases List.cons_eq_cons.mp h1 with ⟨rfl, h1'⟩
        exact Or.inr ⟨l1' ++ a :: l2, ih.mpr ⟨l1', l2, h1', rfl⟩, h2.symm⟩

theorem mem_permsOf {β : Type} : ∀ {l q : List β}, q ∈ permsOf l ↔ q.Perm l := by
  intro l
  induction l with
  | nil =>
    intro q
    simp only [permsOf, List.mem_singleton]
    constructor
    · rintro rfl; rfl
    · intro h; exact h.eq_nil
  | cons a l ih =>
    intro q
    simp only [permsOf, List.mem_flatMap]
    constructor
    · rintro ⟨q', hq', hins⟩
      rcases mem_insertions.mp hins with ⟨l1, l2, rfl, rfl⟩
      exact List.perm_middle.trans ((ih.mp hq').cons a)
    · intro hq
      have ha : a ∈ q := hq.mem_iff.mpr (List.mem_cons_self _ _)
      rcases List.append_of_mem ha with ⟨l1, l2, rfl⟩
      have hmid : (l1 ++ a :: l2).Perm (a :: (l1 ++ l2)) := List.perm_middle
      have hineq : (a :: (l1 ++ l2)).Perm (a :: l) := hmid.symm.trans hq
      exact ⟨l1 ++ l2, ih.mpr hineq.cons_inv, mem_insertions.mpr ⟨l1, l2, rfl, rfl⟩⟩

/-! ## Shape of the stop multiset and inversion of travel -/

theorem mem_stopsOf {v : Vehicle α} {N : List (Request α)} {s : Stop α} (h : s ∈ stopsOf v N) :
    (s.type = StopType.pickup ∧ s.request ∈ N ∧ s.node = s.request.o_r)
      ∨ (s.type = StopType.dropoff ∧ (s.request ∈ v.trip_set ∨ s.request ∈ N)
          ∧ s.node = s.request.d_r) := by
  simp only [stopsOf, List.mem_append, List.mem_map] at h
  rcases h with (⟨r, hr, he⟩ | ⟨r, hr, he⟩) | ⟨r, hr, he⟩
  · exact Or.inr ⟨by rw [← he], Or.inl (by rw [← he]; exact hr), by rw [← he]⟩
  · exact Or.inl ⟨by rw [← he], by rw [← he]; exact hr, by rw [← he]⟩
  · exact Or.inr ⟨by rw [← he], Or.inr (by rw [← he]; exact hr), by rw [← he]⟩

theorem travel_seq_inv {tt : Node → Node → Option α} {v : Vehicle α} {N : List (Request α)}
    {cap : ℕ} {md : α} {p : List (Stop α)} {c : α}
    (h : travel tt v N cap md = TravelResult.seq p c) :
    N ≠ []
      ∧ p.Perm (stopsOf v N)
      ∧ is_valid_permutation v N cap p = true
      ∧ simulate tt md v.q_v v.t_v 0 p = some c
      ∧ ∀ q cq, q.Perm (stopsOf v N) → is_valid_permutation v N cap q = true →
          simulate tt md v.q_v v.t_v 0 q = some cq → c ≤ cq := by
  by_cases hN : N = []
  · subst hN
    cases hE : v.trip_set.isEmpty <;> simp [travel, hE] at h
  · have hNE : N.isEmpty = false := by
      cases N with
      | nil => exact absurd rfl hN
      | cons a l => rfl
    simp only [travel, hNE, Bool.false_eq_true, false_and, if_false] at h
    cases hfold : travelFold tt md v.q_v v.t_v
        ((permsOf (stopsOf v N)).filter (is_valid_permutation v N cap)) none with
    | none => rw [hfold] at h; exact absurd h (by simp)
    | some res =>
      rcases res with ⟨q0, c0⟩
      rw [hfold] at h
      have hq : q0 = p := congrArg (fun t => match t with
        | TravelResult.seq ss _ => ss
        | _ => []) h
      have hc : c0 = c := congrArg (fun t => match t with
        | TravelResult.seq _ cc => cc
        | _ => 0) h
      subst hq; subst hc
      rcases travelFold_some_spec hfold with hbad | ⟨hmem, hsim⟩
      · exact absurd hbad (by simp)
      · have hfilter := List.mem_filter.mp hmem
        refine ⟨hN, mem_permsOf.mp hfilter.1, hfilter.2, hsim, ?_⟩
        intro q cq hqperm hqvalid hqsim
        exact (travelFold_min hfold).2 q cq
          (List.mem_filter.mpr ⟨mem_permsOf.mpr hqperm, hqvalid⟩) hqsim

theorem travel_infeasible_inv {tt : Node → Node → Option α} {v : Vehicle α}
    {N : List (Request α)} {cap : ℕ} {md : α} (hN : N ≠ [])
    (h : travel tt v N cap md = TravelResult.infeasible) :
    ∀ q, q.Perm (stopsOf v N) → is_valid_permutation v N cap q = true →
      simulate tt md v.q_v v.t_v 0 q = none := by
  have hNE : N.isEmpty = false := by
    cases N with
    | nil => exact absurd rfl hN
    | cons a l => rfl
  simp only [travel, hNE, Bool.false_eq_true, false_and, if_false] at h
  cases hfold : travelFold tt md v.q_v v.t_v
      ((permsOf (stopsOf v N)).filter (is_valid_permutation v N cap)) none with
  | some res =>
    rcases res with ⟨q0, c0⟩
    rw [hfold] at h
    exact absurd h (by simp)
  | none =>
    intro q hqperm hqvalid
    exact (travelFold_eq_none.mp hfold).2 q
      (List.mem_filter.mpr ⟨mem_permsOf.mpr hqperm, hqvalid⟩)

theorem travel_result_cases {tt : Node → Node → Option α} {v : Vehicle α}
    {N : List (Request α)} {cap : ℕ} {md : α} (hN : N ≠ []) :
    travel tt v N cap md = TravelResult.infeasible
      ∨ ∃ p c, travel tt v N cap md = TravelResult.seq p c := by
  have hNE : N.isEmpty = false := by
    cases N with
    | nil => exact absurd rfl hN
    | cons a l => rfl
  simp only [travel, hNE, Bool.false_eq_true, false_and, if_false]
  cases hfold : travelFold tt md v.q_v v.t_v
      ((permsOf (stopsOf v N)).filter (is_valid_permutation v N cap)) none with
  | none => exact Or.inl rfl
  | some res => exact Or.inr ⟨res.1, res.2, rfl⟩

/-! ## Identifier uniqueness helpers -/

theorem rid_inj_of_nodup {O N : List (Request α)}
    (hnodup : ((O ++ N).map Request.rid).Nodup) :
    ∀ a, a ∈ O ++ N → ∀ b, b ∈ O ++ N → a.rid = b.rid → a = b := by
  intro a ha b hb hab
  exact List.inj_on_of_nodup_map hnodup ha hb hab

theorem rid_not_in_onboard {O N : List (Request α)} {r : Request α}
    (hnodup : ((O ++ N).map Request.rid).Nodup) (hr : r ∈ N) :
    r.rid ∉ O.map Request.rid := by
  intro hmem
  rw [List.map_append] at hnodup
  have hdisj := (List.nodup_append.mp hnodup).2.2
  exact hdisj hmem (List.mem_map_of_mem Request.rid hr)

/-! ## Equivalence of the code filter with the prefix predicates -/

theorem minDropsFor_of_empty {v : Vehicle α} {N : List (Request α)} {cap : ℕ}
    (hE : v.trip_set = []) (hcap : N.length ≤ cap) :
    minDropsFor v N cap = 0 := by
  simp only [minDropsFor, hE, List.length_nil]
  omega

theorem onboardFirstOk_zero {p : List (Stop α)} : onboardFirstOk 0 p = true := by
  rw [onboardFirstOk_iff]
  intro pre s suf _ _
  exact Nat.zero_le _

theorem codeOccupancy_empty_iff {v : Vehicle α} {cap : ℕ} {p : List (Stop α)}
    (hE : v.trip_set.isEmpty = true) :
    codeOccupancy v cap p = true ↔
      ∀ pre suf, p = pre ++ suf → cntP pre ≤ cntD pre + cap := by
  unfold codeOccupancy
  rw [if_pos hE]
  simp only [List.all_eq_true]
  constructor
  · intro h pre suf hp
    simpa using h (pre, suf) (mem_splits.mpr hp)
  · rintro h ⟨pre, suf⟩ hmem
    simpa using h pre suf (mem_splits.mp hmem)

theorem codeOccupancy_nonempty_iff {v : Vehicle α} {cap : ℕ} {p : List (Stop α)}
    (hE : v.trip_set.isEmpty = false) :
    codeOccupancy v cap p = true ↔
      ∀ pre suf, p = pre ++ suf → cntP pre ≤ cntD pre := by
  unfold codeOccupancy
  rw [if_neg (by simp [hE])]
  simp only [List.all_eq_true]
  constructor
  · intro h pre suf hp
    simpa using h (pre, suf) (mem_splits.mpr hp)
  · rintro h ⟨pre, suf⟩ hmem
    simpa using h pre suf (mem_splits.mp hmem)

theorem valid_perm_iff {v : Vehicle α} {N : List (Request α)} {cap : ℕ} {p : List (Stop α)}
    (hcap : v.trip_set.length + N.length ≤ cap)
    (hnodup : ((v.trip_set ++ N).map Request.rid).Nodup)
    (hperm : p.Perm (stopsOf v N)) :
    is_valid_permutation v N cap p = true ↔
      (precedenceAll N p = true ∧ codeOccupancy v cap p = true
        ∧ onboardFirstOk (minDropsFor v N cap) p = true) := by
  have hshape : ∀ s ∈ p, s ∈ stopsOf v N := fun s hs => hperm.mem_iff.mp hs
  cases hE : v.trip_set.isEmpty with
  | true =>
    have hOnil : v.trip_set = [] := List.isEmpty_iff.mp hE
    have hmd0 : minDropsFor v N cap = 0 :=
      minDropsFor_of_empty hOnil (by omega)
    rw [is_valid_permutation, if_pos hE, hmd0]
    constructor
    · intro hvalid
      refine ⟨?_, ?_, onboardFirstOk_zero⟩
      · rw [precedenceAll_iff]
        intro pre s suf hp hty hmem
        rcases validAux_precedence hvalid pre s suf hp hty with hseen | ⟨s', hs', hty', hrid⟩
        · exact absurd hseen (Finset.not_mem_empty _)
        · have hs'p : s' ∈ p := by rw [hp]; exact List.mem_append_left _ hs'
          have hs'N : s'.request ∈ N := by
            rcases mem_stopsOf (hshape s' hs'p) with ⟨_, hmm, _⟩ | ⟨hdd, _, _⟩
            · exact hmm
            · rw [hty'] at hdd; exact absurd hdd (by simp)
          have hre : s'.request = s.request :=
            rid_inj_of_nodup hnodup _ (List.mem_append_right _ hs'N) _
              (List.mem_append_right _ hmem) hrid
          exact ⟨s', hs', hty', hre⟩
      · rw [codeOccupancy_empty_iff hE]
        intro pre suf hp
        have := validAux_occupancy hvalid (by omega) pre suf hp
        omega
    · rintro ⟨hprec, hocc, _⟩
      apply validAux_complete
      · intro pre s suf hp hty
        have hsp : s ∈ p := by rw [hp]; exact List.mem_append_right _ (List.mem_cons_self _ _)
        have hsN : s.request ∈ N := by
          rcases mem_stopsOf (hshape s hsp) with ⟨hpp, _, _⟩ | ⟨_, hm, _⟩
          · rw [hty] at hpp; exact absurd hpp (by simp)
          · rcases hm with hO | hN'
            · rw [hOnil] at hO; exact absurd hO (by simp)
            · exact hN'
        rcases precedenceAll_iff.mp hprec pre s suf hp hty hsN with ⟨s', hs', hty', hreq⟩
        exact Or.inr ⟨s', hs', hty', by rw [hreq]⟩
      · intro pre s suf _ _
        exact Nat.zero_le _
      · intro pre suf hp
        have := (codeOccupancy_empty_iff hE).mp hocc pre suf hp
        omega
  | false =>
    rw [is_valid_permutation, if_neg (by simp [hE])]
    constructor
    · intro hvalid
      refine ⟨?_, ?_, ?_⟩
      · rw [precedenceAll_iff]
        intro pre s suf hp hty hmem
        rcases validAux_precedence hvalid pre s suf hp hty with hseen | ⟨s', hs', hty', hrid⟩
        · rw [List.mem_toFinset] at hseen
          exact absurd hseen (rid_not_in_onboard hnodup hmem)
        · have hs'p : s' ∈ p := by rw [hp]; exact List.mem_append_left _ hs'
          have hs'N : s'.request ∈ N := by
            rcases mem_stopsOf (hshape s' hs'p) with ⟨_, hmm, _⟩ | ⟨hdd, _, _⟩
            · exact hmm
            · rw [hty'] at hdd; exact absurd hdd (by simp)
          have hre : s'.request = s.request :=
            rid_inj_of_nodup hnodup _ (List.mem_append_right _ hs'N) _
              (List.mem_append_right _ hmem) hrid
          exact ⟨s', hs', hty', hre⟩
      · rw [codeOccupancy_nonempty_iff hE]
        intro pre suf hp
        have := validAux_occupancy hvalid (by omega) pre suf hp
        omega
      · rw [onboardFirstOk_iff]
        intro pre s suf hp hty
        simpa using validAux_minDrops hvalid pre s suf hp hty
    · rintro ⟨hprec, hocc, hobf⟩
      apply validAux_complete
      · intro pre s suf hp hty
        have hsp : s ∈ p := by rw [hp]; exact List.mem_append_right _ (List.mem_cons_self _ _)
        have hsON : s.request ∈ v.trip_set ∨ s.request ∈ N := by
          rcases mem_stopsOf (hshape s hsp) with ⟨hpp, _, _⟩ | ⟨_, hm, _⟩
          · rw [hty] at hpp; exact absurd hpp (by simp)
          · exact hm
        rcases hsON with hO | hN'
        · exact Or.inl (by
            rw [List.mem_toFinset]
            exact List.mem_map_of_mem Request.rid hO)
        · rcases precedenceAll_iff.mp hprec pre s suf hp hty hN' with ⟨s', hs', hty', hreq⟩
          exact Or.inr ⟨s', hs', hty', by rw [hreq]⟩
      · intro pre s suf hp hty
        simpa using onboardFirstOk_iff.mp hobf pre s suf hp hty
      · intro pre suf hp
        have := (codeOccupancy_nonempty_iff hE).mp hocc pre suf hp
        omega

/-! ## Claim theorems about the travel oracle -/

/-- C4: with a nonempty onboard set, in every stop sequence returned by
`travel` no PICKUP appears until at least
`max(0, |new requests| − capacity + |onboard|)` DROPOFFs have occurred. -/
theorem travel_onboard_first (tt : Node → Node → Option α) (v : Vehicle α)
    (N : List (Request α)) (cap : ℕ) (md : α) (p : List (Stop α)) (c : α)
    (hON : v.trip_set ≠ [])
    (hret : travel tt v N cap md = TravelResult.seq p c) :
    ∀ pre s suf, p = pre ++ s :: suf → s.type = StopType.pickup →
      max 0 ((N.length : ℤ) - (cap : ℤ) + (v.trip_set.length : ℤ)) ≤ (cntD pre : ℤ) := by
  rcases travel_seq_inv hret with ⟨_, _, hvalid, _, _⟩
  have hE : v.trip_set.isEmpty = false := by
    cases hts : v.trip_set with
    | nil => exact absurd hts hON
    | cons a l => rfl
  rw [is_valid_permutation, if_neg (by simp [hE])] at hvalid
  intro pre s suf hp hty
  have := validAux_minDrops hvalid pre s suf hp hty
  simp only [minDropsFor] at this
  omega

/-- C5: under the capacity precondition and unique request ids, every
stop sequence returned by `travel` places each new request's PICKUP
strictly before its DROPOFF, and at every prefix the instantaneous load
(onboard plus pickups minus drop-offs) stays at most the capacity. -/
theorem travel_precedence_capacity (tt : Node → Node → Option α) (v : Vehicle α)
    (N : List (Request α)) (cap : ℕ) (md : α) (p : List (Stop α)) (c : α)
    (hret : travel tt v N cap md = TravelResult.seq p c)
    (hcap : v.trip_set.length + N.length ≤ cap)
    (hnodup : ((v.trip_set ++ N).map Request.rid).Nodup) :
    (∀ pre s suf, p = pre ++ s :: suf → s.type = StopType.dropoff →
      s.request ∈ N →
      ∃ s' ∈ pre, s'.type = StopType.pickup ∧ s'.request = s.request)
      ∧ ∀ pre suf, p = pre ++ suf →
        v.trip_set.length + cntP pre ≤ cap + cntD pre := by
  rcases travel_seq_inv hret with ⟨_, hperm, hvalid, _, _⟩
  rcases (valid_perm_iff hcap hnodup hperm).mp hvalid with ⟨hprec, hocc, _⟩
  constructor
  · exact precedenceAll_iff.mp hprec
  · intro pre suf hp
    cases hE : v.trip_set.isEmpty with
    | true =>
      have hOnil : v.trip_set = [] := List.isEmpty_iff.mp hE
      have := (codeOccupancy_empty_iff hE).mp hocc pre suf hp
      rw [hOnil]
      simpa using by omega
    | false =>
      have := (codeOccupancy_nonempty_iff hE).mp hocc pre suf hp
      omega

/-- C6: every stop sequence returned by `travel`, simulated from the
vehicle's position at its clock with shortest-path leg travel times,
reaches every PICKUP by `t_r^pl` and every DROPOFF by
`t_r^* + max_delay`, every leg being reachable. -/
theorem travel_deadlines (tt : Node → Node → Option α) (v : Vehicle α)
    (N : List (Request α)) (cap : ℕ) (md : α) (p : List (Stop α)) (c : α)
    (hret : travel tt v N cap md = TravelResult.seq p c) :
    legsOk tt md v.q_v v.t_v p = true := by
  rcases travel_seq_inv hret with ⟨_, _, _, hsim, _⟩
  exact simulate_legsOk hsim

/-- C7: with an empty new-request set, `travel` returns INFEASIBLE when
the onboard set is also empty, and otherwise returns the existing
onboard plan at cost zero; no other outcome occurs. -/
theorem travel_empty_new_requests (tt : Node → Node → Option α) (v : Vehicle α)
    (cap : ℕ) (md : α) :
    (v.trip_set = [] → travel tt v [] cap md = TravelResult.infeasible)
      ∧ (v.trip_set ≠ [] → travel tt v [] cap md = TravelResult.plan v.trip_set 0) := by
  constructor
  · intro h
    simp [travel, h]
  · intro h
    have hE : v.trip_set.isEmpty = false := by
      cases hts : v.trip_set with
      | nil => exact absurd hts h
      | cons a l => rfl
    simp [travel, hE]

/-- C10: with a nonempty onboard set, at every prefix of a returned stop
sequence the new-request pickups performed never outnumber the
drop-offs performed, so the instantaneous load never exceeds the initial
onboard count. -/
theorem travel_load_bounded_by_onboard (tt : Node → Node → Option α) (v : Vehicle α)
    (N : List (Request α)) (cap : ℕ) (md : α) (p : List (Stop α)) (c : α)
    (hON : v.trip_set ≠ [])
    (hret : travel tt v N cap md = TravelResult.seq p c) :
    ∀ pre suf, p = pre ++ suf →
      cntP pre ≤ cntD pre
        ∧ v.trip_set.length + cntP pre ≤ v.trip_set.length + cntD pre := by
  rcases travel_seq_inv hret with ⟨_, _, hvalid, _, _⟩
  have hE : v.trip_set.isEmpty = false := by
    cases hts : v.trip_set with
    | nil => exact absurd hts hON
    | cons a l => rfl
  rw [is_valid_permutation, if_neg (by simp [hE])] at hvalid
  intro pre suf hp
  have := validAux_occupancy hvalid (by omega) pre suf hp
  omega

/-- Witness for C4 at the concrete instance `(vOnW, [rNewW])`, at the
pickup stop of the returned sequence, whose prefix is the single
committed drop-off. -/
theorem travel_onboard_first_witness :
    max 0 ((([rNewW] : List (Request ℤ)).length : ℤ) - ((2 : ℕ) : ℤ)
        + (vOnW.trip_set.length : ℤ))
      ≤ (cntD [(⟨StopType.dropoff, 1, rOnW⟩ : Stop ℤ)] : ℤ) :=
  travel_onboard_first ttW vOnW [rNewW] 2 600 pOnW 20 (by decide) (by decide)
    [⟨StopType.dropoff, 1, rOnW⟩] ⟨StopType.pickup, 1, rNewW⟩
    [⟨StopType.dropoff, 2, rNewW⟩] (by decide) (by decide)

/-- Witness for C5 at the concrete instance `(vOnW, [rNewW])`. -/
theorem travel_precedence_capacity_witness :
    (∀ pre s suf, pOnW = pre ++ s :: suf → s.type = StopType.dropoff →
      s.request ∈ [rNewW] →
      ∃ s' ∈ pre, s'.type = StopType.pickup ∧ s'.request = s.request)
      ∧ ∀ pre suf, pOnW = pre ++ suf →
        vOnW.trip_set.length + cntP pre ≤ 2 + cntD pre :=
  travel_precedence_capacity ttW vOnW [rNewW] 2 600 pOnW 20 (by decide) (by decide)
    (by decide)

/-- Witness for C6 at the concrete instance `(vEmptyW, [rW])`. -/
theorem travel_deadlines_witness :
    legsOk ttW 600 vEmptyW.q_v vEmptyW.t_v pEmptyW = true :=
  travel_deadlines ttW vEmptyW [rW] 2 600 pEmptyW 10 (by decide)

/-- Witness for C7 at two concrete vehicles, one empty and one with an
onboard request. -/
theorem travel_empty_new_requests_witness :
    travel ttW vEmptyW [] 2 600 = TravelResult.infeasible
      ∧ travel ttW vOnW [] 2 600 = TravelResult.plan vOnW.trip_set 0 :=
  ⟨(travel_empty_new_requests ttW vEmptyW 2 600).1 (by decide),
    (travel_empty_new_requests ttW vOnW 2 600).2 (by decide)⟩

/-- Witness for C10 at the concrete instance `(vOnW, [rNewW])`, at the
prefix holding the committed drop-off and the new pickup. -/
theorem travel_load_bounded_by_onboard_witness :
    cntP [(⟨StopType.dropoff, 1, rOnW⟩ : Stop ℤ), ⟨StopType.pickup, 1, rNewW⟩]
        ≤ cntD [(⟨StopType.dropoff, 1, rOnW⟩ : Stop ℤ), ⟨StopType.pickup, 1, rNewW⟩]
      ∧ vOnW.trip_set.length
          + cntP [(⟨StopType.dropoff, 1, rOnW⟩ : Stop ℤ), ⟨StopType.pickup, 1, rNewW⟩]
        ≤ vOnW.trip_set.length
          + cntD [(⟨StopType.dropoff, 1, rOnW⟩ : Stop ℤ), ⟨StopType.pickup, 1, rNewW⟩] :=
  travel_load_bounded_by_onboard ttW vOnW [rNewW] 2 600 pOnW 20 (by decide) (by decide)
    [⟨StopType.dropoff, 1, rOnW⟩, ⟨StopType.pickup, 1, rNewW⟩]
    [⟨StopType.dropoff, 2, rNewW⟩] (by decide)

/-! ## Claim theorems about the oracle optimality contract -/

theorem amendedValid_iff {tt : Node → Node → Option α} {v : Vehicle α}
    {N : List (Request α)} {cap : ℕ} {md : α} {p : List (Stop α)}
    (hcap : v.trip_set.length + N.length ≤ cap)
    (hnodup : ((v.trip_set ++ N).map Request.rid).Nodup) :
    amendedValid tt v N cap md p = true ↔
      (p.Perm (stopsOf v N) ∧ is_valid_permutation v N cap p = true
        ∧ legsOk tt md v.q_v v.t_v p = true) := by
  simp only [amendedValid, Bool.and_eq_true, decide_eq_true_eq]
  constructor
  · rintro ⟨⟨⟨⟨hperm, hprec⟩, hocc⟩, hobf⟩, hlegs⟩
    exact ⟨hperm, (valid_perm_iff hcap hnodup hperm).mpr ⟨hprec, hocc, hobf⟩, hlegs⟩
  · rintro ⟨hperm, hvalid, hlegs⟩
    rcases (valid_perm_iff hcap hnodup hperm).mp hvalid with ⟨hprec, hocc, hobf⟩
    exact ⟨⟨⟨⟨hperm, hprec⟩, hocc⟩, hobf⟩, hlegs⟩

/-- C1 counterexample: a vehicle with one committed passenger and one
new request where the stop ordering `pC` satisfies every constraint of
the specification (precedence, capacity, onboard-first, deadlines,
reachability), yet the oracle returns INFEASIBLE — so `travel` is not
the minimum over the specification's constraint set. -/
theorem travel_not_spec_optimal :
    specValid ttW vOnC [rNewC] 2 600 pC = true
      ∧ travel ttW vOnC [rNewC] 2 600 = TravelResult.infeasible :=
  ⟨by decide, by decide⟩

/-- C1 amended: under the precondition and unique ids, `travel` returns
a stop sequence of minimal leg-cost among the orderings satisfying
precedence, onboard-first, deadlines, reachability, and the occupancy
rule the code enforces (`codeOccupancy`: with a nonempty onboard set,
new pickups never outnumber drop-offs; with an empty one, the load bound
is the capacity); when no such ordering exists it returns INFEASIBLE. -/
theorem travel_min_cost_amended (tt : Node → Node → Option α) (v : Vehicle α)
    (N : List (Request α)) (cap : ℕ) (md : α)
    (hN : N ≠ [])
    (hcap : v.trip_set.length + N.length ≤ cap)
    (hnodup : ((v.trip_set ++ N).map Request.rid).Nodup) :
    ((∃ p, amendedValid tt v N cap md p = true) →
      ∃ q c, travel tt v N cap md = TravelResult.seq q c
        ∧ amendedValid tt v N cap md q = true
        ∧ tripCost tt v.q_v q = some c
        ∧ ∀ p cp, amendedValid tt v N cap md p = true →
            tripCost tt v.q_v p = some cp → c ≤ cp)
      ∧ ((∀ p, amendedValid tt v N cap md p = false) →
          travel tt v N cap md = TravelResult.infeasible) := by
  constructor
  · rintro ⟨p, hp⟩
    rcases (amendedValid_iff hcap hnodup).mp hp with ⟨hperm, hvalid, hlegs⟩
    rcases legsOk_simulate 0 hlegs with ⟨tc, htc, hsim⟩
    rcases @travel_result_cases α _ tt v N cap md hN with hinf | ⟨q, c, hseq⟩
    · exact absurd (travel_infeasible_inv hN hinf p hperm hvalid) (by simp [hsim])
    · rcases travel_seq_inv hseq with ⟨_, hqperm, hqvalid, hqsim, hmin⟩
      refine ⟨q, c, hseq, ?_, ?_, ?_⟩
      · exact (amendedValid_iff hcap hnodup).mpr
          ⟨hqperm, hqvalid, simulate_legsOk hqsim⟩
      · rcases simulate_some_cost hqsim with ⟨tcq, htcq, hcq⟩
        rw [htcq, hcq, zero_add]
      · intro p' cp hp' hcp
        rcases (amendedValid_iff hcap hnodup).mp hp' with ⟨hperm', hvalid', hlegs'⟩
        rcases legsOk_simulate 0 hlegs' with ⟨tc2, htc2, hsim2⟩
        have hle := hmin p' (0 + tc2) hperm' hvalid' hsim2
        have : tc2 = cp := by
          rw [htc2] at hcp
          exact Option.some.inj hcp
        rw [← this]
        simpa using hle
  · intro hall
    rcases @travel_result_cases α _ tt v N cap md hN with hinf | ⟨q, c, hseq⟩
    · exact hinf
    · rcases travel_seq_inv hseq with ⟨_, hqperm, hqvalid, hqsim, _⟩
      have : amendedValid tt v N cap md q = true :=
        (amendedValid_iff hcap hnodup).mpr ⟨hqperm, hqvalid, simulate_legsOk hqsim⟩
      rw [hall q] at this
      exact absurd this (by simp)

/-- Witness for the amended C1 at the concrete instance
`(vEmptyW, [rW])`. -/
theorem travel_min_cost_amended_witness :
    ((∃ p, amendedValid ttW vEmptyW [rW] 2 600 p = true) →
      ∃ q c, travel ttW vEmptyW [rW] 2 600 = TravelResult.seq q c
        ∧ amendedValid ttW vEmptyW [rW] 2 600 q = true
        ∧ tripCost ttW vEmptyW.q_v q = some c
        ∧ ∀ p cp, amendedValid ttW vEmptyW [rW] 2 600 p = true →
            tripCost ttW vEmptyW.q_v p = some cp → c ≤ cp)
      ∧ ((∀ p, amendedValid ttW vEmptyW [rW] 2 600 p = false) →
          travel ttW vEmptyW [rW] 2 600 = TravelResult.infeasible) :=
  travel_min_cost_amended ttW vEmptyW [rW] 2 600 (by decide) (by decide) (by decide)

/-! ## Claim theorems about the RV graph builder -/

/-- C3 counterexample: at current time 100 the pickup deadline 50 of the
first request has already passed, so none of the three composite
orderings of the claim is feasible with every stop checked against its
own deadline, yet the code adds the RR edge. -/
theorem rr_edge_not_spec :
    rr_edge ttW 100 600 rrA rrB = true
      ∧ rr_edge_spec ttW 100 600 rrA rrB = false :=
  ⟨by decide, by decide⟩

/-- C3 amended: the RR criterion of the code equals, for every
travel-time oracle and every pair of requests, the prefix-sum deadline
checks of `rr_edge_amended`: the pickup of the first request is never
checked, the second and third composite orderings check each remaining
stop against its own deadline with the travel times the code fetched,
and the first ordering uses the origin-to-origin time in place of the
first pickup-to-dropoff leg. -/
theorem rr_edge_eq_amended (tt : Node → Node → Option α) (ct md : α)
    (r1 r2 : Request α) :
    rr_edge tt ct md r1 r2 = rr_edge_amended tt ct md r1 r2 := by
  unfold rr_edge rr_edge_amended
  cases tt r1.o_r r2.o_r <;> cases tt r1.d_r r2.o_r
    <;> cases tt r2.o_r r2.d_r <;> cases tt r1.d_r r2.d_r
    <;> simp [ordFeas, Bool.decide_and, Bool.and_true, Bool.and_assoc]

/-- C2: the pruning flag of `generate_rv_graph` is dead because the
inner helper function shadows it.  At a concrete instance with two
compatible requests, the RR edge construction produces exactly one edge,
yet the graph returned with pruning disabled and degree cap zero has no
edges at all: the builder pruned although the flag was false. -/
theorem generate_rv_graph_ignores_prune_flag :
    rrEdges ttW [rvA, rvB] 0 600 =
        [⟨RVNodeId.req 1, RVNodeId.req 2, 100, none, RVEdgeType.rr⟩]
      ∧ (generate_rv_graph ttW [] [rvA, rvB] 0 2 600 false 0).edges = [] :=
  ⟨by decide, by decide⟩

/-! ## Lemmas about the greedy assignment loop -/

theorem findBest_some_stays : ∀ (l : List (ℕ × Trip × ℚ)) (x : ℕ × Trip) (mc : WithTop ℚ),
    findBest l (some x) mc ≠ none := by
  intro l
  induction l with
  | nil => intro x mc h; exact absurd h (by simp [findBest])
  | cons cand rest ih =>
    intro x mc
    simp only [findBest]
    by_cases hlt : (cand.2.2 : WithTop ℚ) < mc
    · rw [if_pos hlt]; exact ih _ _
    · rw [if_neg hlt]; exact ih _ _

theorem findBest_none_top {l : List (ℕ × Trip × ℚ)}
    (h : findBest l none ⊤ = none) : l = [] := by
  cases l with
  | nil => rfl
  | cons cand rest =>
    simp only [findBest] at h
    rw [if_pos (WithTop.coe_lt_top cand.2.2)] at h
    exact absurd h (findBest_some_stays _ _ _)

theorem findBest_min_spec : ∀ (l : List (ℕ × Trip × ℚ)) (best : Option (ℕ × Trip))
    (mc : WithTop ℚ) (vid : ℕ) (T : Trip),
    findBest l best mc = some (vid, T) →
      (best = some (vid, T) ∧ ∀ cand ∈ l, mc ≤ (cand.2.2 : WithTop ℚ))
        ∨ (∃ rc, (vid, T, rc) ∈ l ∧ (rc : WithTop ℚ) ≤ mc
            ∧ ∀ cand ∈ l, rc ≤ cand.2.2) := by
  intro l
  induction l with
  | nil =>
    intro best mc vid T h
    exact Or.inl ⟨by simpa [findBest] using h, by simp⟩
  | cons cand rest ih =>
    rcases cand with ⟨cv, cT, crc⟩
    intro best mc vid T h
    simp only [findBest] at h
    by_cases hlt : (crc : WithTop ℚ) < mc
    · rw [if_pos hlt] at h
      rcases ih _ _ _ _ h with ⟨h1, h2⟩ | ⟨rc, hmem, hle, hall⟩
      · have h4 : cv = vid := congrArg Prod.fst (Option.some.inj h1)
        have h5 : cT = T := congrArg Prod.snd (Option.some.inj h1)
        subst h4; subst h5
        refine Or.inr ⟨crc, List.mem_cons_self _ _, le_of_lt hlt, ?_⟩
        intro c hc'
        rcases List.mem_cons.mp hc' with rfl | hc''
        · exact le_refl _
        · exact WithTop.coe_le_coe.mp (h2 c hc'')
      · refine Or.inr ⟨rc, List.mem_cons_of_mem _ hmem, le_trans hle (le_of_lt hlt), ?_⟩
        intro c hc'
        rcases List.mem_cons.mp hc' with rfl | hc''
        · exact WithTop.coe_le_coe.mp hle
        · exact hall c hc''
    · rw [if_neg hlt] at h
      have hge : mc ≤ (crc : WithTop ℚ) := le_of_not_lt hlt
      rcases ih _ _ _ _ h with ⟨h1, h2⟩ | ⟨rc, hmem, hle, hall⟩
      · refine Or.inl ⟨h1, ?_⟩
        intro c hc'
        rcases List.mem_cons.mp hc' with rfl | hc''
        · exact hge
        · exact h2 c hc''
      · refine Or.inr ⟨rc, List.mem_cons_of_mem _ hmem, hle, ?_⟩
        intro c hc'
        rcases List.mem_cons.mp hc' with rfl | hc''
        · exact WithTop.coe_le_coe.mp (le_trans hle hge)
        · exact hall c hc''

theorem mem_eligibleList {g : RTVGraph} {u : List ℕ} {s : Finset ℕ}
    {vid : ℕ} {T : Trip} {rc : ℚ} :
    (vid, T, rc) ∈ eligibleList g u s ↔
      ∃ c, eligiblePair g u s vid T c ∧ rc = relCost c T := by
  simp only [eligibleList, List.mem_flatMap, List.mem_filterMap, eligiblePair]
  constructor
  · rintro ⟨u0, hu0, T0, hT0, heq⟩
    cases hc : g.cost T0.tid u0 with
    | none =>
      simp only [hc] at heq
      exact absurd heq (by simp)
    | some c =>
      simp only [hc] at heq
      by_cases hne : (T0.requests ∩ s).Nonempty
      · rw [if_pos hne] at heq; exact absurd heq (by simp)
      · rw [if_neg hne] at heq
        have h3 := Option.some.inj heq
        have h4 : u0 = vid := congrArg Prod.fst h3
        have h5 : T0 = T := congrArg (fun x => x.2.1) h3
        have h6 : relCost c T0 = rc := congrArg (fun x => x.2.2) h3
        subst h4; subst h5
        exact ⟨c, ⟨hu0, hT0, hc, Finset.not_nonempty_iff_eq_empty.mp hne⟩, h6.symm⟩
  · rintro ⟨c, ⟨hu, hT, hc, hint⟩, rfl⟩
    refine ⟨vid, hu, T, hT, ?_⟩
    simp only [hc]
    rw [if_neg (by rw [hint]; exact Finset.not_nonempty_empty)]

theorem greedyLoop_trace (g : RTVGraph) :
    ∀ (fuel : ℕ) (pool : List ℕ) (served : Finset ℕ), pool.length ≤ fuel →
      GreedyTrace g pool served (greedyLoop g fuel pool served) := by
  intro fuel
  induction fuel with
  | zero =>
    intro pool served hlen
    have : pool = [] := List.length_eq_zero.mp (Nat.le_zero.mp hlen)
    subst this
    exact GreedyTrace.nil _ _ (by
      rintro vid T c ⟨hv, _⟩
      exact absurd hv (by simp))
  | succ fuel ih =>
    intro pool served hlen
    simp only [greedyLoop]
    cases hfb : findBest (eligibleList g pool served) none ⊤ with
    | none =>
      have hempty := findBest_none_top hfb
      refine GreedyTrace.nil _ _ ?_
      rintro vid T c helig
      have : (vid, T, relCost c T) ∈ eligibleList g pool served :=
        mem_eligibleList.mpr ⟨c, helig, rfl⟩
      rw [hempty] at this
      exact absurd this (by simp)
    | some best =>
      rcases best with ⟨vid, T⟩
      rcases findBest_min_spec _ _ _ _ _ hfb with ⟨h1, _⟩ | ⟨rc, hmem, _, hall⟩
      · exact absurd h1 (by simp)
      · rcases mem_eligibleList.mp hmem with ⟨c, helig, rfl⟩
        refine GreedyTrace.cons _ _ _ _ c _ helig ?_ ?_
        · intro vid' T' c' helig'
          exact hall (vid', T', relCost c' T')
            (mem_eligibleList.mpr ⟨c', helig', rfl⟩)
        · apply ih
          have hv : vid ∈ pool := helig.1
          have := List.length_erase_of_mem hv
          omega

theorem trace_mem_pool {g : RTVGraph} :
    ∀ {pool : List ℕ} {served : Finset ℕ} {A : List (ℕ × Trip)},
      GreedyTrace g pool served A → ∀ x ∈ A, x.1 ∈ pool := by
  intro pool served A h
  induction h with
  | nil => intro x hx; exact absurd hx (by simp)
  | cons pool served vid T c rest helig hmin hrest ih =>
    intro x hx
    rcases List.mem_cons.mp hx with rfl | hx'
    · exact helig.1
    · exact List.mem_of_mem_erase (ih x hx')

theorem trace_keys_nodup {g : RTVGraph} :
    ∀ {pool : List ℕ} {served : Finset ℕ} {A : List (ℕ × Trip)},
      GreedyTrace g pool served A → pool.Nodup → (A.map Prod.fst).Nodup := by
  intro pool served A h
  induction h with
  | nil => intro _; simp
  | cons pool served vid T c rest helig hmin hrest ih =>
    intro hnd
    simp only [List.map_cons, List.nodup_cons]
    refine ⟨?_, ih (hnd.erase vid)⟩
    intro hmem
    rcases List.mem_map.mp hmem with ⟨x, hx, hx1⟩
    have : x.1 ∈ pool.erase vid := trace_mem_pool hrest x hx
    rw [hx1] at this
    exact (List.Nodup.mem_erase_iff hnd).mp this |>.1 rfl

theorem trace_disjoint_served {g : RTVGraph} :
    ∀ {pool : List ℕ} {served : Finset ℕ} {A : List (ℕ × Trip)},
      GreedyTrace g pool served A → ∀ x ∈ A, x.2.requests ∩ served = ∅ := by
  intro pool served A h
  induction h with
  | nil => intro x hx; exact absurd hx (by simp)
  | cons pool served vid T c rest helig hmin hrest ih =>
    intro x hx
    rcases List.mem_cons.mp hx with rfl | hx'
    · exact helig.2.2.2
    · have := ih x hx'
      have hsub : x.2.requests ∩ served ⊆ x.2.requests ∩ (served ∪ T.requests) :=
        Finset.inter_subset_inter_left Finset.subset_union_left
      rw [this] at hsub
      exact Finset.subset_empty.mp hsub

theorem trace_pairwise_disjoint {g : RTVGraph} :
    ∀ {pool : List ℕ} {served : Finset ℕ} {A : List (ℕ × Trip)},
      GreedyTrace g pool served A →
        A.Pairwise (fun a b => a.2.requests ∩ b.2.requests = ∅) := by
  intro pool served A h
  induction h with
  | nil => exact List.Pairwise.nil
  | cons pool served vid T c rest helig hmin hrest ih =>
    refine List.Pairwise.cons ?_ ih
    intro b hb
    have hbdisj := trace_disjoint_served hrest b hb
    have hsub : T.requests ∩ b.2.requests ⊆ b.2.requests ∩ (served ∪ T.requests) := by
      intro x hx
      rcases Finset.mem_inter.mp hx with ⟨hx1, hx2⟩
      exact Finset.mem_inter.mpr ⟨hx2, Finset.mem_union_right _ hx1⟩
    rw [hbdisj] at hsub
    exact Finset.subset_empty.mp hsub

/-- C8: the greedy seed follows exactly the described process — from the
pool of vehicles with at least one RTV edge, repeatedly assign an
eligible pair of minimum relative cost `cost(T, v) / |T|`, marking the
trip's requests served and retiring the vehicle, stopping exactly when
no eligible pair remains — and consequently each vehicle is assigned at
most once and any two assigned trips are request-disjoint. -/
theorem greedy_assignment_correct (g : RTVGraph) (vehicles : List ℕ)
    (hnodup : vehicles.Nodup)
    (hreq : ∀ T ∈ g.trips, T.requests.Nonempty) :
    GreedyTrace g
        (vehicles.filter (fun vid => g.trips.any (fun T => (g.cost T.tid vid).isSome)))
        ∅ (greedy_assignment g vehicles)
      ∧ ((greedy_assignment g vehicles).map Prod.fst).Nodup
      ∧ (greedy_assignment g vehicles).Pairwise
          (fun a b => a.2.requests ∩ b.2.requests = ∅) := by
  have hpool : (vehicles.filter
      (fun vid => g.trips.any (fun T => (g.cost T.tid vid).isSome))).Nodup :=
    hnodup.filter _
  have htrace := greedyLoop_trace g
    (vehicles.filter (fun vid => g.trips.any (fun T => (g.cost T.tid vid).isSome))).length
    (vehicles.filter (fun vid => g.trips.any (fun T => (g.cost T.tid vid).isSome)))
    ∅ (le_refl _)
  exact ⟨htrace, trace_keys_nodup htrace hpool, trace_pairwise_disjoint htrace⟩

/-- Witness for C8 at the concrete RTV graph `gW`. -/
theorem greedy_assignment_correct_witness :
    GreedyTrace gW
        ([10, 11].filter (fun vid => gW.trips.any (fun T => (gW.cost T.tid vid).isSome)))
        ∅ (greedy_assignment gW [10, 11])
      ∧ ((greedy_assignment gW [10, 11]).map Prod.fst).Nodup
      ∧ (greedy_assignment gW [10, 11]).Pairwise
          (fun a b => a.2.requests ∩ b.2.requests = ∅) :=
  greedy_assignment_correct gW [10, 11] (by decide) (by decide)

/-! ## Lemmas about the ILP model construction -/

theorem countP_eq_sum_map {β : Type} (l : List β) (q : β → Bool) :
    l.countP q = (l.map (fun x => if q x then 1 else 0)).sum := by
  induction l with
  | nil => rfl
  | cons a l ih =>
    rw [List.countP_cons, List.map_cons, List.sum_cons, ih]
    omega

theorem countP_flatMap {β γ : Type} (l : List β) (f : β → List γ) (q : γ → Bool) :
    (l.flatMap f).countP q = (l.map (fun a => (f a).countP q)).sum := by
  induction l with
  | nil => rfl
  | cons a l ih =>
    rw [List.flatMap_cons, List.countP_append, List.map_cons, List.sum_cons, ih]

theorem sum_map_flatMap {β γ : Type} (l : List β) (f : β → List γ) (g : γ → ℚ) :
    ((l.flatMap f).map g).sum = (l.map (fun a => ((f a).map g).sum)).sum := by
  induction l with
  | nil => rfl
  | cons a l ih =>
    rw [List.flatMap_cons, List.map_append, List.sum_append, List.map_cons,
      List.sum_cons, ih]

theorem filterMap_if_of_all_true {β γ : Type} {l : List β} {P : β → Prop}
    [DecidablePred P] {f : β → γ} (h : ∀ x ∈ l, P x) :
    (l.filterMap (fun x => if P x then some (f x) else none)) = l.map f := by
  induction l with
  | nil => rfl
  | cons a l ih =>
    rw [List.filterMap_cons, if_pos (h a (List.mem_cons_self _ _))]
    rw [List.map_cons, ih (fun x hx => h x (List.mem_cons_of_mem _ hx))]

theorem filterMap_if_of_all_false {β γ : Type} {l : List β} {P : β → Prop}
    [DecidablePred P] {f : β → γ} (h : ∀ x ∈ l, ¬ P x) :
    (l.filterMap (fun x => if P x then some (f x) else none)) = [] := by
  induction l with
  | nil => rfl
  | cons a l ih =>
    rw [List.filterMap_cons, if_neg (h a (List.mem_cons_self _ _))]
    exact ih (fun x hx => h x (List.mem_cons_of_mem _ hx))

theorem eq_singleton_of_length_le_one {β : Type} {l : List β} {x : β}
    (h : l.length ≤ 1) (hx : x ∈ l) : l = [x] := by
  cases l with
  | nil => exact absurd hx (by simp)
  | cons a l' =>
    cases l' with
    | nil =>
      have : x = a := by simpa using hx
      rw [this]
    | cons b l'' => simp at h

theorem mem_epsilonKeys {g : RTVGraph} {t u : ℕ} :
    (t, u) ∈ epsilonKeys g ↔
      ∃ T ∈ g.trips, T.tid = t ∧ u ∈ g.vehicleNodes ∧ (g.cost t u).isSome := by
  simp only [epsilonKeys, List.mem_flatMap, List.mem_map, List.mem_filter]
  constructor
  · rintro ⟨T, hT, v0, ⟨hv0, hsome⟩, heq⟩
    have h1 : T.tid = t := congrArg Prod.fst heq
    have h2 : v0 = u := congrArg Prod.snd heq
    subst h2
    exact ⟨T, hT, h1, hv0, h1 ▸ (by simpa using hsome)⟩
  · rintro ⟨T, hT, rfl, hu, hsome⟩
    exact ⟨T, hT, u, ⟨hu, by simpa using hsome⟩, rfl⟩

theorem count_filter_single {ns : List ℕ} (hnd : ns.Nodup) (pred : ℕ → Bool)
    (F : ℕ → Bool) {vid : ℕ} (hv : vid ∈ ns) :
    (ns.filter pred).countP (fun u => F u && decide (u = vid)) =
      if pred vid = true then (if F vid then 1 else 0) else 0 := by
  induction ns with
  | nil => exact absurd hv (by simp)
  | cons n ns ih =>
    rcases List.nodup_cons.mp hnd with ⟨hn, hnd'⟩
    rcases List.mem_cons.mp hv with rfl | hv'
    · have hrest : (ns.filter pred).countP (fun u => F u && decide (u = vid)) = 0 := by
        rw [List.countP_eq_zero]
        intro a ha
        have haa : a ∈ ns := List.mem_of_mem_filter ha
        simp only [Bool.and_eq_true, decide_eq_true_eq]
        rintro ⟨_, rfl⟩
        exact hn haa
      cases hp : pred vid with
      | false =>
        rw [List.filter_cons_of_neg (by simp [hp]), hrest]
        simp [hp]
      | true =>
        rw [List.filter_cons_of_pos (by simp [hp]), List.countP_cons, hrest]
        simp [hp]
    · have hne : n ≠ vid := fun he => hn (he ▸ hv')
      cases hp : pred n with
      | false =>
        rw [List.filter_cons_of_neg (by simp [hp])]
        exact ih hnd' hv'
      | true =>
        rw [List.filter_cons_of_pos (by simp [hp]), List.countP_cons]
        rw [ih hnd' hv']
        simp [hne]

theorem vehicleEdges_countP_eq {g : RTVGraph} (σ : ℕ × ℕ → Bool) {vid : ℕ}
    (hvn : g.vehicleNodes.Nodup) (hv : vid ∈ g.vehicleNodes) :
    (vehicleEdges g vid).countP σ = claimVehicleLHS g σ vid := by
  unfold vehicleEdges claimVehicleLHS epsilonKeys
  rw [List.countP_filter, countP_flatMap]
  have hfun : ∀ T : Trip,
      (((g.vehicleNodes.filter (fun u => (g.cost T.tid u).isSome)).map
        (fun u => (T.tid, u))).countP (fun e => σ e && decide (e.2 = vid)))
      = (if (g.cost T.tid vid).isSome = true
          then (if σ (T.tid, vid) then 1 else 0) else 0) := by
    intro T
    rw [List.countP_map]
    have := count_filter_single hvn (fun u => (g.cost T.tid u).isSome)
      (fun u => σ (T.tid, u)) hv
    simpa using this
  simp only [hfun]
  induction g.trips with
  | nil => rfl
  | cons T ts ih =>
    rw [List.map_cons, List.sum_cons, ih]
    cases hs : (g.cost T.tid vid).isSome with
    | false =>
      rw [List.filter_cons_of_neg (by simp [hs])]
      simp
    | true =>
      rw [List.filter_cons_of_pos (by simp [hs]), List.map_cons, List.sum_cons]
      simp

theorem relevantEdges_countP_eq {g : RTVGraph} (σ : ℕ × ℕ → Bool) (rid : ℕ)
    (hdisj : ∀ T ∈ g.trips, ∀ r ∈ T.requests, r ∉ g.vehicleNodes) :
    (relevantEdges g rid).countP σ =
      ((g.trips.filter (fun T => rid ∈ T.requests)).map (fun T =>
        ((g.vehicleNodes.filter (fun v => (g.cost T.tid v).isSome)).map
          (fun v => if σ (T.tid, v) then 1 else 0)).sum)).sum := by
  unfold relevantEdges
  rw [countP_flatMap]
  congr 1
  apply List.map_congr_left
  intro T hT
  rcases List.mem_filter.mp hT with ⟨hTmem, hTreq⟩
  unfold tripNeighbors
  rw [List.filterMap_append]
  have hA : ((g.vehicleNodes.filter (fun v => (g.cost T.tid v).isSome)).filterMap
      (fun n => if (T.tid, n) ∈ epsilonKeys g then some (T.tid, n) else none))
      = (g.vehicleNodes.filter (fun v => (g.cost T.tid v).isSome)).map
          (fun n => (T.tid, n)) := by
    apply filterMap_if_of_all_true
    intro x hx
    rcases List.mem_filter.mp hx with ⟨hx1, hx2⟩
    exact mem_epsilonKeys.mpr ⟨T, hTmem, rfl, hx1, by simpa using hx2⟩
  have hB : ((T.requests.sort (fun a b => a ≤ b)).filterMap
      (fun n => if (T.tid, n) ∈ epsilonKeys g then some (T.tid, n) else none)) = [] := by
    apply filterMap_if_of_all_false
    intro x hx hmem
    rcases mem_epsilonKeys.mp hmem with ⟨T', _, _, hx2, _⟩
    exact hdisj T hTmem x ((Finset.mem_sort (fun a b => a ≤ b)).mp hx) hx2
  rw [hA, hB, List.append_nil, List.countP_map, countP_eq_sum_map]
  rfl

theorem ilpObjective_eq (g : RTVGraph) (requestIds : List ℕ) (P : ℚ)
    (σ : ℕ × ℕ → Bool) (χ : ℕ → Bool) :
    ilpObjective g requestIds P σ χ = claimObjective g requestIds P σ χ := by
  unfold ilpObjective claimObjective epsilonKeys
  rw [sum_map_flatMap]
  congr 1
  · congr 1
    apply List.map_congr_left
    intro T _
    rw [List.map_map]
    rfl
  · rw [← List.sum_map_mul_left]

theorem extract_some_iff {keys : List (ℕ × ℕ)} {σ : ℕ × ℕ → Bool} {vid tid : ℕ}
    (hlen : (keys.filter (fun e => σ e && decide (e.2 = vid))).length ≤ 1) :
    extractAssignment keys σ vid = some tid ↔
      ((tid, vid) ∈ keys ∧ σ (tid, vid) = true) := by
  constructor
  · intro h
    unfold extractAssignment at h
    cases hlast : (keys.filter (fun e => σ e && decide (e.2 = vid))).getLast? with
    | none => rw [hlast] at h; exact absurd h (by simp)
    | some e =>
      rw [hlast] at h
      have h1 : e.1 = tid := Option.some.inj h
      have hmem := List.mem_of_getLast?_eq_some hlast
      rcases List.mem_filter.mp hmem with ⟨hkeys, hcond⟩
      rcases Bool.and_eq_true .. |>.mp hcond with ⟨hσ, hv2⟩
      have hv2' : e.2 = vid := of_decide_eq_true hv2
      have he : e = (tid, vid) := by
        rcases e with ⟨e1, e2⟩
        simp only at h1 hv2'
        rw [h1, hv2']
      rw [← he]
      exact ⟨hkeys, he ▸ hσ⟩
  · rintro ⟨hmem, hσ⟩
    have hmf : (tid, vid) ∈ keys.filter (fun e => σ e && decide (e.2 = vid)) :=
      List.mem_filter.mpr ⟨hmem, by simp [hσ]⟩
    have hsing := eq_singleton_of_length_le_one hlen hmf
    unfold extractAssignment
    rw [hsing]
    rfl

/-- C9: `assignment_ilp` builds one epsilon variable per trip-vehicle
edge of the RTV graph; the per-vehicle constraint sum it builds equals
the claim's sum of the vehicle's epsilon variables; the per-request
constraint sum equals the claim's sum of epsilon over the pairs whose
trip contains the request, plus chi; the objective equals cost times
epsilon summed over edges plus the penalty times chi summed over
requests; and on any valuation satisfying the built constraints the
returned assignment maps a vehicle to a trip exactly when that pair's
epsilon variable is one. -/
theorem assignment_ilp_model (g : RTVGraph) (vehicleIds requestIds : List ℕ)
    (σ : ℕ × ℕ → Bool) (χ : ℕ → Bool)
    (hvn : g.vehicleNodes.Nodup)
    (hdisj : ∀ T ∈ g.trips, ∀ r ∈ T.requests, r ∉ g.vehicleNodes)
    (hcover : ∀ u ∈ g.vehicleNodes, u ∈ vehicleIds) :
    (∀ t u, (t, u) ∈ epsilonKeys g ↔
        ∃ T ∈ g.trips, T.tid = t ∧ u ∈ g.vehicleNodes ∧ (g.cost t u).isSome)
      ∧ (∀ vid ∈ g.vehicleNodes,
          (vehicleEdges g vid).countP σ = claimVehicleLHS g σ vid)
      ∧ (∀ rid, (relevantEdges g rid).countP σ + (if χ rid then 1 else 0)
          = claimRequestLHS g σ χ rid)
      ∧ (∀ P, ilpObjective g requestIds P σ χ = claimObjective g requestIds P σ χ)
      ∧ (ilpConstraints g vehicleIds requestIds σ χ →
          ∀ vid tid, (extractAssignment (epsilonKeys g) σ vid = some tid ↔
            ((tid, vid) ∈ epsilonKeys g ∧ σ (tid, vid) = true))) := by
  refine ⟨fun t u => mem_epsilonKeys, ?_, ?_, ?_, ?_⟩
  · intro vid hvid
    exact vehicleEdges_countP_eq σ hvn hvid
  · intro rid
    rw [relevantEdges_countP_eq σ rid hdisj]
    rfl
  · intro P
    exact ilpObjective_eq g requestIds P σ χ
  · intro hcon vid tid
    have hlen : ((epsilonKeys g).filter
        (fun e => σ e && decide (e.2 = vid))).length ≤ 1 := by
      by_cases hvid : vid ∈ g.vehicleNodes
      · have hc1 := hcon.1 vid (hcover vid hvid)
        rw [List.countP_eq_length_filter] at hc1
        unfold vehicleEdges at hc1
        rw [List.filter_filter] at hc1
        exact hc1
      · have : (epsilonKeys g).filter (fun e => σ e && decide (e.2 = vid)) = [] := by
          rw [List.filter_eq_nil_iff]
          rintro ⟨t0, u0⟩ hmem hcond
          rcases Bool.and_eq_true .. |>.mp hcond with ⟨_, hv2⟩
          have : u0 = vid := of_decide_eq_true hv2
          subst this
          rcases mem_epsilonKeys.mp hmem with ⟨T, _, _, hu, _⟩
          exact hvid hu
        rw [this]
        simp
    exact extract_some_iff hlen

/-- Witness for C9 at the concrete RTV graph `gW` with the valuation
`σW`, `χW`. -/
theorem assignment_ilp_model_witness :
    (∀ t u, (t, u) ∈ epsilonKeys gW ↔
        ∃ T ∈ gW.trips, T.tid = t ∧ u ∈ gW.vehicleNodes ∧ (gW.cost t u).isSome)
      ∧ (∀ vid ∈ gW.vehicleNodes,
          (vehicleEdges gW vid).countP σW = claimVehicleLHS gW σW vid)
      ∧ (∀ rid, (relevantEdges gW rid).countP σW + (if χW rid then 1 else 0)
          = claimRequestLHS gW σW χW rid)
      ∧ (∀ P, ilpObjective gW [1, 2] P σW χW = claimObjective gW [1, 2] P σW χW)
      ∧ (ilpConstraints gW [10, 11] [1, 2] σW χW →
          ∀ vid tid, (extractAssignment (epsilonKeys gW) σW vid = some tid ↔
            ((tid, vid) ∈ epsilonKeys gW ∧ σW (tid, vid) = true))) :=
  assignment_ilp_model gW [10, 11] [1, 2] σW χW (by decide) (by decide) (by decide)

end HovRide
